import Mathlib

/-!
Verification development for the vtrenderlib terminal rasterizer
(src/vtrenderlib.c).  The C code is shallowly embedded as follows:

* `uint8_t` cell bytes are `ℕ` (kept below 256 by the operations);
* machine `int`/`uint16_t` values are `ℤ`/`ℕ`; the inputs appearing in the
  theorems below stay far from the 32-bit wrap, where C and `ℤ` agree;
* C `float` arithmetic is modelled as exact rational arithmetic on `ℚ`.
  Every concrete float computation evaluated in a theorem below is exact in
  binary32 as well (small integers, exact divisions - noted at use sites);
  `roundf` is round-half-away-from-zero and `(int)` casts truncate toward 0.
  A theorem quantified over all coordinates is a statement about this exact
  model; the C floats agree with it only while every operand and
  intermediate value stays within binary32 accuracy (in particular,
  coordinate magnitudes below 2^24), and where they round the program can
  drift from the model - noted where it matters;
* the stencil byte arrays are `ℕ`-indexed functions; `memset` zeroes exactly
  the indices the C call touches;
* `write(2)` and `realloc(3)` outcomes are oracle booleans (`writeOk`,
  `allocOk`) passed to the functions that perform them.
-/

namespace Vtr

/-- Character cell height in dots (VT_CELL_YDOTS). -/
def VT_CELL_YDOTS : ℕ := 4

/-- Character cell width in dots (VT_CELL_XDOTS). -/
def VT_CELL_XDOTS : ℕ := 2

def VT_MIN_SEQLIST_SLACK : ℕ := 64

def VT_SEQLIST_BUFFER_SIZE (rows cols : ℕ) : ℕ :=
  max (((rows + 1) * cols + 1) * 9) VT_MIN_SEQLIST_SLACK

/-- ANSI color indices of `enum vtr_color`; VTR_COLOR_DEFAULT = 0. -/
def VTR_COLOR_DEFAULT : ℕ := 0

/-- `struct vtr_stencil_buf`: three parallel cell-indexed byte arrays. -/
@[ext] structure Stencil where
  ydots : ℕ
  xdots : ℕ
  buffer : ℕ → ℕ
  fgcolors : ℕ → ℕ
  textoverlay : ℕ → ℕ

/-- `struct vtr_canvas` (terminal fd / termios fields are not modelled:
no claim is about them). `cur = false` designates `sb0` as `cur_sb`. -/
@[ext] structure Canvas where
  resize_pending : Bool
  nrows : ℕ
  ncols : ℕ
  ydots : ℕ
  xdots : ℕ
  sb0 : Stencil
  sb1 : Stencil
  cur : Bool
  seqcap : ℕ

/-- Return codes of the int-returning API entry points:
`ok` = 0, `eio` = -1 (short/failed write), `enomem` = -ENOMEM,
`einval` = -EINVAL. -/
inductive VtrResult where
  | ok
  | eio
  | enomem
  | einval
deriving DecidableEq

/-- `create_stencil_buf`: calloc'ed arrays, dot dims derived from cells. -/
def create_stencil_buf (rows cols : ℕ) : Stencil :=
  { ydots := rows * VT_CELL_YDOTS
    xdots := cols * VT_CELL_XDOTS
    buffer := fun _ => 0
    fgcolors := fun _ => 0
    textoverlay := fun _ => 0 }

/-- `vtr_canvas_create` for a `rows x cols` terminal (allocation assumed to
succeed; the I/O handle and termios snapshot are not modelled). -/
def vtr_canvas_create (rows cols : ℕ) : Canvas :=
  { resize_pending := false
    nrows := rows
    ncols := cols
    ydots := rows * VT_CELL_YDOTS
    xdots := cols * VT_CELL_XDOTS
    sb0 := create_stencil_buf rows cols
    sb1 := create_stencil_buf rows cols
    cur := false
    seqcap := VT_SEQLIST_BUFFER_SIZE rows cols }

/-- `vt->cur_sb` (the back buffer accepting rasterization). -/
def curSb (vt : Canvas) : Stencil := if vt.cur then vt.sb1 else vt.sb0

/-- The other stencil: `prev_sb` in `vtr_swap_buffers`, i.e. the front
buffer holding the previously presented frame. -/
def prevSb (vt : Canvas) : Stencil := if vt.cur then vt.sb0 else vt.sb1

/-- Apply a mutation to the current stencil (the C code mutates through the
`cur_sb` pointer). -/
def updateCur (vt : Canvas) (f : Stencil → Stencil) : Canvas :=
  if vt.cur then { vt with sb1 := f vt.sb1 } else { vt with sb0 := f vt.sb0 }

/-! ## Dot plotting (`render_dot`, `print_char`, `vtr_render_dot[c]`) -/
/-- static `render_dot`: sets one mask bit and overwrites the cell's
foreground color.  `y & (VT_CELL_YDOTS-1)` is written `y % 4` and
`x & (VT_CELL_XDOTS-1)` is written `x % 2` (masks with 2^k - 1). -/
def render_dot (sb : Stencil) (x y : ℕ) (fgc : ℕ) : Stencil :=
  let row := y / VT_CELL_YDOTS
  let col := x / VT_CELL_XDOTS
  let ncols := sb.xdots / VT_CELL_XDOTS
  let stencil := (1 <<< (y % VT_CELL_YDOTS)) <<< ((x % VT_CELL_XDOTS) * 4)
  { sb with
    buffer := fun i => if i = row * ncols + col then sb.buffer i ||| stencil else sb.buffer i
    fgcolors := fun i => if i = row * ncols + col then fgc else sb.fgcolors i }

/-- static `print_char`: writes one overlay byte. -/
def print_char (sb : Stencil) (row col : ℕ) (c : ℕ) : Stencil :=
  let ncols := sb.xdots / VT_CELL_XDOTS
  { sb with textoverlay := fun i => if i = row * ncols + col then c else sb.textoverlay i }

/-- static inline `point_test`. -/
def point_test (vt : Canvas) (x y : ℤ) : Bool :=
  (decide (0 ≤ x) && decide (x < (vt.xdots : ℤ))) &&
  (decide (0 ≤ y) && decide (y < (vt.ydots : ℤ)))

/-- `vtr_render_dotc`. -/
def vtr_render_dotc (vt : Canvas) (x y : ℤ) (fgc : ℕ) : Canvas :=
  if point_test vt x y then updateCur vt (fun sb => render_dot sb x.toNat y.toNat fgc) else vt

/-- `vtr_render_dot`. -/
def vtr_render_dot (vt : Canvas) (x y : ℤ) : Canvas :=
  vtr_render_dotc vt x y VTR_COLOR_DEFAULT

/-- Cell index of dot `(x, y)` on a stencil with `ncols` cell columns
(`row * ncols + col` as computed by `render_dot`). -/
def cellOf (ncols x y : ℕ) : ℕ := (y / VT_CELL_YDOTS) * ncols + x / VT_CELL_XDOTS

/-- Bit position of dot `(x, y)` inside its cell byte (internal layout). -/
def bitOf (x y : ℕ) : ℕ := y % VT_CELL_YDOTS + (x % VT_CELL_XDOTS) * 4

/-- Whether dot `(x, y)` is set on a stencil (reads the bit `render_dot`
would set). -/
def dotTest (sb : Stencil) (x y : ℕ) : Bool :=
  (sb.buffer (cellOf (sb.xdots / VT_CELL_XDOTS) x y)).testBit (bitOf x y)

/-! ## Folding a list of plotted dots over a stencil

`scan_line` (and through it the polygon filler) issue a sequence of
`render_dot` calls; we represent such a sequence as the list of plotted
`(x, y)` pairs (in `ℤ`, converted to `ℕ` exactly as the C implicitly
converts its in-range `int` coordinates to the `uint16_t` parameters). -/
def plotDot (fgc : ℕ) (sb : Stencil) (p : ℤ × ℤ) : Stencil :=
  render_dot sb p.1.toNat p.2.toNat fgc

def applyDots (fgc : ℕ) (sb : Stencil) (ps : List (ℤ × ℤ)) : Stencil :=
  ps.foldl (plotDot fgc) sb

/-! ## Internal-to-Braille mask conversion (`vtr_swap_buffers`, line 684) -/
/-- `bcell = (stencil & 0x7) | (stencil & 0x8) << 3 | (stencil & 0x70) >> 1
| (stencil & 0x80)`. -/
def braille (m : ℕ) : ℕ :=
  (m &&& 0x7) ||| ((m &&& 0x8) <<< 3) ||| ((m &&& 0x70) >>> 1) ||| (m &&& 0x80)

/-- The inverse permutation of `braille` on bytes: bits 0..2 and 7 fixed,
Braille bits 3..5 back to internal 4..6, Braille bit 6 back to internal 3. -/
def brailleInv (b : ℕ) : ℕ :=
  (b &&& 0x7) ||| ((b &&& 0x38) <<< 1) ||| ((b &&& 0x40) >>> 3) ||| (b &&& 0x80)

/-! ## C9: `vtr_print_text` touches only the overlay of the back stencil -/
/-- The `while (col < vt->ncols && *str != '\0')` loop of `vtr_print_text`
(the C string is the byte list up to and excluding its NUL terminator;
a 0 byte inside the list stops the loop exactly as `*str != '\0'` does). -/
def printLoop (ncols : ℕ) (sb : Stencil) (row : ℕ) : ℕ → List ℕ → Stencil
  | _, [] => sb
  | col, c :: rest =>
    if col < ncols ∧ c ≠ 0 then printLoop ncols (print_char sb row col c) row (col + 1) rest
    else sb

/-- `vtr_print_text`. -/
def vtr_print_text (vt : Canvas) (row col : ℕ) (str : List ℕ) : VtrResult × Canvas :=
  if vt.nrows ≤ row ∨ vt.ncols ≤ col then (.einval, vt)
  else (.ok, updateCur vt (fun sb => printLoop vt.ncols sb row col str))

/-! ## `scan_line` / `vtr_scan_linec` (Liang-Barsky clip + slope marches)

The float arithmetic of these routines is modelled exactly on `ℚ`.
Each C `for` loop becomes a fueled recursion collecting the `(x, y)`
arguments of its `render_dot` calls in order; the fuel supplied at the call
site is the exact iteration count of the loop (the loops step their control
variable by `±1` until it reaches the bound, so the count is `|Δ| + 1`). -/
/-- C `roundf`: round half away from zero. -/
def roundf (q : ℚ) : ℤ := if q < 0 then -round (-q) else round q

/-- C `(int)` cast of a float value: truncation toward zero.  With `q` in
lowest terms, `Int.tdiv` of the numerator by the denominator rounds
toward zero, which is exactly the C cast. -/
def trunc (q : ℚ) : ℤ := q.num.tdiv (q.den : ℤ)

/-- `calc_slope`; `none` models the `INFINITY` sentinel for vertical
lines. -/
def calc_slope (x0 y0 x1 y1 : ℤ) : Option ℚ :=
  if x1 = x0 then none else some (((y1 : ℚ) - (y0 : ℚ)) / ((x1 : ℚ) - (x0 : ℚ)))

/-- `yf = m * ((float)x - x1) + y1` (x-major loop of `scan_line`). -/
def lineY (m : ℚ) (x1 y1 : ℤ) (x : ℤ) : ℚ := m * ((x : ℚ) - (x1 : ℚ)) + (y1 : ℚ)

/-- `xf = ((float)y - y1) / m + x1` (y-major loop of `scan_line`). -/
def lineX (m : ℚ) (x1 y1 : ℤ) (y : ℤ) : ℚ := ((y : ℚ) - (y1 : ℚ)) / m + (x1 : ℚ)

/-- `for (x = x0; x != x1 + hdir; x += hdir) render_dot(sb, x, y0)`. -/
def hMarch (y0 hdir stop : ℤ) : ℕ → ℤ → List (ℤ × ℤ)
  | 0, _ => []
  | fuel + 1, x => if x = stop then [] else (x, y0) :: hMarch y0 hdir stop fuel (x + hdir)

/-- `for (y = y0; y != y1 + vdir; y += vdir) render_dot(sb, x0, y)`. -/
def vMarch (x0 vdir stop : ℤ) : ℕ → ℤ → List (ℤ × ℤ)
  | 0, _ => []
  | fuel + 1, y => if y = stop then [] else (x0, y) :: vMarch x0 vdir stop fuel (y + vdir)

/-- `for (x = x0, y = y0; x != x1 + hdir; x += hdir, y += vdir)
render_dot(sb, x, y)` (the `m = ±1` diagonal loop). -/
def dMarch (hdir vdir stop : ℤ) : ℕ → ℤ → ℤ → List (ℤ × ℤ)
  | 0, _, _ => []
  | fuel + 1, x, y =>
    if x = stop then [] else (x, y) :: dMarch hdir vdir stop fuel (x + hdir) (y + vdir)

/-- The `-1 < m < 1` x-major loop of `scan_line`, ties at `yf - y = -0.5`
plotting `(x, y-1)` as well. -/
def xMarch (m : ℚ) (x1 y1 hdir stop : ℤ) : ℕ → ℤ → ℤ → ℚ → List (ℤ × ℤ)
  | 0, _, _, _ => []
  | fuel + 1, x, y, yf =>
    if x = stop then []
    else
      ((x, y) :: (if yf - (y : ℚ) = -(1 / 2 : ℚ) then [(x, y - 1)] else [])) ++
        xMarch m x1 y1 hdir stop fuel (x + hdir) (roundf (lineY m x1 y1 (x + hdir)))
          (lineY m x1 y1 (x + hdir))

/-- The `|m| > 1` y-major loop of `scan_line`, ties at `xf - x = -0.5`
plotting `(x-1, y)` as well. -/
def yMarch (m : ℚ) (x1 y1 vdir stop : ℤ) : ℕ → ℤ → ℤ → ℚ → List (ℤ × ℤ)
  | 0, _, _, _ => []
  | fuel + 1, y, x, xf =>
    if y = stop then []
    else
      ((x, y) :: (if xf - (x : ℚ) = -(1 / 2 : ℚ) then [(x - 1, y)] else [])) ++
        yMarch m x1 y1 vdir stop fuel (y + vdir) (roundf (lineX m x1 y1 (y + vdir)))
          (lineX m x1 y1 (y + vdir))

/-- The dots plotted by static `scan_line`, by the C branch structure
(`m == 0.0`, `m == INFINITY`, `m == ±1.0`, `-1.0 < m < 1.0`, else). -/
def scanLineDots (x0 y0 x1 y1 : ℤ) : List (ℤ × ℤ) :=
  let hdir : ℤ := if x0 < x1 then 1 else -1
  let vdir : ℤ := if y0 < y1 then 1 else -1
  match calc_slope x0 y0 x1 y1 with
  | none => vMarch x0 vdir (y1 + vdir) ((y1 - y0).natAbs + 1) y0
  | some m =>
    if m = 0 then hMarch y0 hdir (x1 + hdir) ((x1 - x0).natAbs + 1) x0
    else if m = -1 ∨ m = 1 then dMarch hdir vdir (x1 + hdir) ((x1 - x0).natAbs + 1) x0 y0
    else if -1 < m ∧ m < 1 then
      xMarch m x1 y1 hdir (x1 + hdir) ((x1 - x0).natAbs + 1) x0 y0 0
    else yMarch m x1 y1 vdir (y1 + vdir) ((y1 - y0).natAbs + 1) y0 x0 0

/-- static `scan_line` (endpoints pre-clipped by the callers). -/
def scan_line (sb : Stencil) (x0 y0 x1 y1 : ℤ) (fgc : ℕ) : Stencil :=
  applyDots fgc sb (scanLineDots x0 y0 x1 y1)

/-- The Liang-Barsky edge loop of `vtr_scan_linec` over the four
`(p[i], q[i])` pairs; `none` is the early `return` for a parallel outside
edge, otherwise the accumulated `(tentry, texit)`.  The C quotient
`(float)q / p` is modeled as exact rational division: the two values
agree only while `q`, `p` and the quotient's rounding stay within
binary32 accuracy (each concrete instance proved below is hand-checked
to be exact or half-ulp-safe); for coordinates of magnitude 2^24 and
above the C float conversion itself rounds and the program's clip window
drifts from this model (see `vtr_scan_line_endpoint_symm`). -/
def clipLoop : List (ℤ × ℤ) → ℚ → ℚ → Option (ℚ × ℚ)
  | [], tentry, texit => some (tentry, texit)
  | (p, q) :: rest, tentry, texit =>
    if p = 0 then
      if q < 0 then none else clipLoop rest tentry texit
    else
      if p < 0 then clipLoop rest (max tentry ((q : ℚ) / (p : ℚ))) texit
      else clipLoop rest tentry (min texit ((q : ℚ) / (p : ℚ)))

/-- `vtr_scan_linec`.  The clipped endpoints `x0 + t * dx` are computed
in exact rational arithmetic where the C computes in binary32; the two
agree only while the coordinates and intermediate products are exactly
representable (true of every concrete instance proved below, false for
coordinates of magnitude 2^24 and above, where the C conversion
`(float)x0` already rounds). -/
def vtr_scan_linec (vt : Canvas) (x0 y0 x1 y1 : ℤ) (fgc : ℕ) : Canvas :=
  let dx := x1 - x0
  let dy := y1 - y0
  let xmin : ℤ := 0
  let ymin : ℤ := 0
  let xmax : ℤ := (vt.xdots : ℤ) - 1
  let ymax : ℤ := (vt.ydots : ℤ) - 1
  match clipLoop [(-dx, x0 - xmin), (dx, xmax - x0), (-dy, y0 - ymin), (dy, ymax - y0)] 0 1 with
  | none => vt
  | some (tentry, texit) =>
    if tentry ≤ texit then
      updateCur vt (fun sb =>
        scan_line sb
          (roundf ((x0 : ℚ) + tentry * (dx : ℚ))) (roundf ((y0 : ℚ) + tentry * (dy : ℚ)))
          (roundf ((x0 : ℚ) + texit * (dx : ℚ))) (roundf ((y0 : ℚ) + texit * (dy : ℚ))) fgc)
    else vt

/-- `vtr_scan_line`. -/
def vtr_scan_line (vt : Canvas) (x0 y0 x1 y1 : ℤ) : Canvas :=
  vtr_scan_linec vt x0 y0 x1 y1 VTR_COLOR_DEFAULT

/-- One non-initial iteration of the x-major loop: the dot at
`(u, roundf yf)` plus the tie dot below it when `yf` lands exactly on a
half (`yf - roundf yf = -0.5`). -/
def xStep (m : ℚ) (x1 y1 : ℤ) (u : ℤ) : List (ℤ × ℤ) :=
  (u, roundf (lineY m x1 y1 u)) ::
    (if lineY m x1 y1 u - ((roundf (lineY m x1 y1 u) : ℤ) : ℚ) = -(1 / 2 : ℚ)
      then [(u, roundf (lineY m x1 y1 u) - 1)] else [])

/-- One non-initial iteration of the y-major loop. -/
def yStep (m : ℚ) (x1 y1 : ℤ) (u : ℤ) : List (ℤ × ℤ) :=
  (roundf (lineX m x1 y1 u), u) ::
    (if lineX m x1 y1 u - ((roundf (lineX m x1 y1 u) : ℤ) : ℚ) = -(1 / 2 : ℚ)
      then [(roundf (lineX m x1 y1 u) - 1, u)] else [])

/-! ## `vtr_swap_buffers`: frame differ, escape encoder, buffer swap

`write(2)` and `realloc(3)` outcomes are the oracle booleans `writeOk` and
`allocOk`.  The function returns the C return code, the post-call canvas,
and the byte stream handed to `write`. -/
/-- Decimal ASCII digits of `n` (what `snprintf %d` emits). -/
def decDigits (n : ℕ) : List ℕ := (Nat.toDigits 10 n).map Char.toNat

/-- `set_pos_s`: `ESC [ row ; col H` (1-based row/column). -/
def set_pos_s (row col : ℕ) : List ℕ :=
  [0x1B, 91] ++ decDigits row ++ [59] ++ decDigits col ++ [72]

/-- `set_foreground_color_s`: `ESC [ 3 k m`, `k = '9'` for DEFAULT else
`'0' + fgc - 1`. -/
def set_foreground_color_s (fgc : ℕ) : List ℕ :=
  [0x1B, 91, 51, if fgc = VTR_COLOR_DEFAULT then 57 else 48 + fgc - 1, 109]

/-- `draw_cell_s`: the 3-byte UTF-8 sequence of U+2800 + bcell. -/
def draw_cell_s (bcell : ℕ) : List ℕ :=
  [0xE2, 0xA0 ||| (bcell >>> 6), 0x80 ||| (bcell &&& 0x3F)]

/-- Running state of the differ walk: bytes emitted so far, current
`seqcap`, `cell_skipped`, `cur_fgc`. -/
structure DiffSt where
  seq : List ℕ
  cap : ℕ
  skipped : Bool
  fgc : ℕ

/-- Cell visit order of the differ: row-major, 0-based `(row, col)`. -/
def cells (vt : Canvas) : List (ℕ × ℕ) :=
  (List.range vt.nrows).flatMap (fun r => (List.range vt.ncols).map (fun c => (r, c)))

/-- One iteration of the differ loop of `vtr_swap_buffers`.  `none` models
the `return -ENOMEM` taken when the seqlist is low on space and
`extend_seq_buf`'s `realloc` fails (which restores `seqcap` and has not
touched the stencils); on success a needed extension doubles `cap`. -/
def diffStep (vt : Canvas) (allocOk : Bool) (st : DiffSt) (rc : ℕ × ℕ) : Option DiffSt :=
  let cur := curSb vt
  let prev := prevSb vt
  let i := rc.1 * vt.ncols + rc.2
  let is_overlaid := cur.textoverlay i ≠ 0
  let is_text_diff := cur.textoverlay i ≠ prev.textoverlay i
  let is_cell_diff := cur.buffer i ≠ prev.buffer i ∨ cur.fgcolors i ≠ prev.fgcolors i
  if ¬is_text_diff ∧ (is_overlaid ∨ ¬is_cell_diff) then some { st with skipped := true }
  else if st.cap - st.seq.length ≤ VT_MIN_SEQLIST_SLACK ∧ allocOk = false then none
  else
    let cap := if st.cap - st.seq.length ≤ VT_MIN_SEQLIST_SLACK then 2 * st.cap else st.cap
    let seq1 := if st.skipped then st.seq ++ set_pos_s (rc.1 + 1) (rc.2 + 1) else st.seq
    if ¬is_overlaid ∧ (is_text_diff ∨ is_cell_diff) then
      let bcell := braille (cur.buffer i)
      let cellfgc := cur.fgcolors i
      let seq2 := if cellfgc ≠ st.fgc then seq1 ++ set_foreground_color_s cellfgc else seq1
      let fgc2 := if cellfgc ≠ st.fgc then cellfgc else st.fgc
      some { seq := seq2 ++ draw_cell_s bcell, cap := cap, skipped := false, fgc := fgc2 }
    else if is_overlaid ∧ is_text_diff then
      let seq2 := if st.fgc ≠ VTR_COLOR_DEFAULT
        then seq1 ++ set_foreground_color_s VTR_COLOR_DEFAULT else seq1
      let fgc2 := if st.fgc ≠ VTR_COLOR_DEFAULT then VTR_COLOR_DEFAULT else st.fgc
      some { seq := seq2 ++ [cur.textoverlay i], cap := cap, skipped := false, fgc := fgc2 }
    else some { seq := seq1, cap := cap, skipped := false, fgc := st.fgc }

/-- The differ state right after emitting the SGR-reset stream prefix. -/
def initDiffSt (vt : Canvas) : DiffSt :=
  { seq := set_foreground_color_s VTR_COLOR_DEFAULT
    cap := vt.seqcap
    skipped := true
    fgc := VTR_COLOR_DEFAULT }

/-- The full differ walk, starting from the SGR-reset stream prefix. -/
def diffWalk (vt : Canvas) (allocOk : Bool) : Option DiffSt :=
  (cells vt).foldl (fun acc rc => acc.bind (fun st => diffStep vt allocOk st rc))
    (some (initDiffSt vt))

/-- `memset(p, 0, nrows * ncols)` on all three arrays of a stencil. -/
def zeroSb (n : ℕ) (sb : Stencil) : Stencil :=
  { sb with
    buffer := fun i => if i < n then 0 else sb.buffer i
    fgcolors := fun i => if i < n then 0 else sb.fgcolors i
    textoverlay := fun i => if i < n then 0 else sb.textoverlay i }

/-- `vtr_swap_buffers`: walk the diff, then unconditionally zero the
previous stencil, toggle `cur_sb`, and hand the stream to `write`
(`sendseq`), whose outcome only determines the return code. -/
def vtr_swap_buffers (vt : Canvas) (allocOk writeOk : Bool) : VtrResult × Canvas × List ℕ :=
  match diffWalk vt allocOk with
  | none => (.enomem, vt, [])
  | some st =>
    let n := vt.nrows * vt.ncols
    let vt2 :=
      if vt.cur then { vt with sb0 := zeroSb n vt.sb0, cur := false, seqcap := st.cap }
      else { vt with sb1 := zeroSb n vt.sb1, cur := true, seqcap := st.cap }
    ((if writeOk then .ok else .eio), vt2, st.seq)

/-! ## Polygon tracing (`vtr_trace_polyc`)

A vertex list is a `List (ℤ × ℤ)`.  `vertB vlist i` is the C expression
`(i + 1 == nvertices ? vlist[0] : vlist[i + 1])` and `vertC` the
two-level conditional selecting the third vertex of the triple.  The
float expression computing an x-intercept is modeled exactly over `ℚ`
with the C `(int)` cast as truncation toward zero; every concrete
intercept evaluated below is exact in binary32 (small integer operands,
products below 2^24, and divisions with exactly-representable results),
so the `ℚ` value coincides with the float the C computes. -/
def vertB (vlist : List (ℤ × ℤ)) (i : ℕ) : ℤ × ℤ :=
  if i + 1 = vlist.length then vlist.getD 0 (0, 0) else vlist.getD (i + 1) (0, 0)

def vertC (vlist : List (ℤ × ℤ)) (i : ℕ) : ℤ × ℤ :=
  if i + 2 = vlist.length then vlist.getD 0 (0, 0)
  else if i + 1 = vlist.length then vlist.getD 1 (0, 0)
  else vlist.getD (i + 2) (0, 0)

def cross2At (vlist : List (ℤ × ℤ)) (i : ℕ) : ℤ :=
  let a := vlist.getD i (0, 0)
  let b := vertB vlist i
  let c := vertC vlist i
  (b.1 - a.1) * (c.2 - b.2) - (b.2 - a.2) * (c.1 - b.1)

def crossList (vlist : List (ℤ × ℤ)) : List ℤ :=
  (List.range vlist.length).map (cross2At vlist)

/-- The convexity-validation loop: `cross` carries the last nonzero cross
product (0 initially); a strict sign mismatch is the C `return -EINVAL`,
modeled as `none`. -/
def polyScanAux : List ℤ → ℤ → Option ℤ
  | [], cross => some cross
  | c2 :: rest, cross =>
      if c2 = 0 then polyScanAux rest cross
      else if (0 < cross ∧ c2 < 0) ∨ (cross < 0 ∧ 0 < c2) then none
      else polyScanAux rest c2

/-- `ymin` accumulation, starting from C `INT_MAX`. -/
def polyYmin (vlist : List (ℤ × ℤ)) : ℤ :=
  vlist.foldl (fun acc v => min acc v.2) 2147483647

/-- `ymax` accumulation, starting from C `INT_MIN`. -/
def polyYmax (vlist : List (ℤ × ℤ)) : ℤ :=
  vlist.foldl (fun acc v => max acc v.2) (-2147483648)

/-- The C float expression
`(float)(a.x - b.x) * (y - b.y) / (a.y - b.y) + b.x`, exactly over `ℚ`. -/
def xceptQ (a b : ℤ × ℤ) (y : ℤ) : ℚ :=
  ((a.1 - b.1 : ℤ) : ℚ) * ((y - b.2 : ℤ) : ℚ) / ((a.2 - b.2 : ℤ) : ℚ) +
    ((b.1 : ℤ) : ℚ)

/-- One edge of the per-row loop body: the three branches of the C code
(horizontal edge, min/max vertex touch, intercept collection with the
fall-through duplicate check).  The intercept list is unbounded here; the
C array has room for two entries only, so a list of length 3 or more
means the C `assert(ncepts < 2)` fired (or, with NDEBUG, the store went
out of bounds). -/
def polyRowStep (fgc : ℕ) (ymin ymax y : ℤ) (st : Canvas × List ℤ)
    (ab : (ℤ × ℤ) × (ℤ × ℤ)) : Canvas × List ℤ :=
  let a := ab.1
  let b := ab.2
  if y = a.2 ∧ y = b.2 then
    (vtr_scan_linec st.1 a.1 a.2 b.1 b.2 fgc, st.2)
  else if (y = a.2 ∨ y = b.2) ∧ (y = ymin ∨ y = ymax) then
    (vtr_render_dotc st.1 (if y = a.2 then a.1 else b.1) y fgc, st.2)
  else if (a.2 ≤ y ∧ y ≤ b.2) ∨ (b.2 ≤ y ∧ y ≤ a.2) then
    let xcept := trunc (xceptQ a b y)
    if (st.2.length = 2 ∧ (st.2.getD 1 0 = xcept ∨ st.2.getD 0 0 = xcept)) ∨
        (st.2.length = 1 ∧ st.2.getD 0 0 = xcept) then
      st
    else
      (st.1, st.2 ++ [xcept])
  else st

def polyEdges (vlist : List (ℤ × ℤ)) : List ((ℤ × ℤ) × (ℤ × ℤ)) :=
  (List.range vlist.length).map (fun i => (vlist.getD i (0, 0), vertB vlist i))

/-- The inner edge loop for one scan row: the canvas after the
side-effecting branches, paired with the collected intercepts. -/
def polyRow (vlist : List (ℤ × ℤ)) (fgc : ℕ) (ymin ymax : ℤ) (vt : Canvas)
    (y : ℤ) : Canvas × List ℤ :=
  (polyEdges vlist).foldl (polyRowStep fgc ymin ymax y) (vt, [])

/-- After collecting the intercepts of a row: two intercepts scan a
horizontal segment, one plots a dot, zero draws nothing. -/
def polyFillRow (vlist : List (ℤ × ℤ)) (fgc : ℕ) (ymin ymax : ℤ) (vt : Canvas)
    (y : ℤ) : Canvas :=
  let st := polyRow vlist fgc ymin ymax vt y
  if st.2.length = 2 then
    vtr_scan_linec st.1 (st.2.getD 0 0) y (st.2.getD 1 0) y fgc
  else if st.2.length = 1 then
    vtr_render_dotc st.1 (st.2.getD 0 0) y fgc
  else st.1

/-- The outer row loop `for (y = ymin; y != ymax + 1; y++)`; after
clamping, `ymin ≤ ymax` always holds, so the iteration count is
`ymax - ymin + 1`. -/
def polyScanRows (vlist : List (ℤ × ℤ)) (fgc : ℕ) (ymin ymax : ℤ)
    (vt : Canvas) : Canvas :=
  (List.range ((ymax - ymin).toNat + 1)).foldl
    (fun v k => polyFillRow vlist fgc ymin ymax v (ymin + (k : ℤ))) vt

def vtr_trace_polyc (vt : Canvas) (vlist : List (ℤ × ℤ)) (fgc : ℕ) :
    VtrResult × Canvas :=
  match vlist with
  | [] => (.ok, vt)
  | [a] => (.ok, vtr_render_dotc vt a.1 a.2 fgc)
  | [a, b] => (.ok, vtr_scan_linec vt a.1 a.2 b.1 b.2 fgc)
  | _ :: _ :: _ :: _ =>
      match polyScanAux (crossList vlist) 0 with
      | none => (.einval, vt)
      | some _ =>
          let ymin := polyYmin vlist
          let ymax := polyYmax vlist
          if (ymin < 0 ∧ ymax < 0) ∨
              ((vt.ydots : ℤ) ≤ ymin ∧ (vt.ydots : ℤ) ≤ ymax) then
            (.ok, vt)
          else
            (.ok, polyScanRows vlist fgc (max 0 (min ymin ((vt.ydots : ℤ) - 1)))
              (max 0 (min ymax ((vt.ydots : ℤ) - 1))) vt)

def vtr_trace_poly (vt : Canvas) (vlist : List (ℤ × ℤ)) : VtrResult × Canvas :=
  vtr_trace_polyc vt vlist VTR_COLOR_DEFAULT

/-- The star polygon that defeats the convexity validation: every
consecutive-triple cross product is strictly positive, yet the boundary
self-intersects. -/
def starPoly : List (ℤ × ℤ) := [(12, 0), (20, 16), (0, 6), (24, 6), (4, 16)]

@[simp] theorem curSb_updateCur (vt : Canvas) (f : Stencil → Stencil) :
    curSb (updateCur vt f) = f (curSb vt) := by
  unfold curSb updateCur
  cases vt.cur <;> simp

@[simp] theorem prevSb_updateCur (vt : Canvas) (f : Stencil → Stencil) :
    prevSb (updateCur vt f) = prevSb vt := by
  unfold prevSb updateCur
  cases vt.cur <;> simp

@[simp] theorem nrows_updateCur (vt : Canvas) (f : Stencil → Stencil) :
    (updateCur vt f).nrows = vt.nrows := by
  unfold updateCur; cases vt.cur <;> simp

@[simp] theorem ncols_updateCur (vt : Canvas) (f : Stencil → Stencil) :
    (updateCur vt f).ncols = vt.ncols := by
  unfold updateCur; cases vt.cur <;> simp

@[simp] theorem xdots_updateCur (vt : Canvas) (f : Stencil → Stencil) :
    (updateCur vt f).xdots = vt.xdots := by
  unfold updateCur; cases vt.cur <;> simp

@[simp] theorem ydots_updateCur (vt : Canvas) (f : Stencil → Stencil) :
    (updateCur vt f).ydots = vt.ydots := by
  unfold updateCur; cases vt.cur <;> simp

@[simp] theorem cur_updateCur (vt : Canvas) (f : Stencil → Stencil) :
    (updateCur vt f).cur = vt.cur := by
  unfold updateCur; cases vt.cur <;> simp

theorem render_dot_stencil_bit (x y : ℕ) :
    (1 <<< (y % VT_CELL_YDOTS)) <<< ((x % VT_CELL_XDOTS) * 4) = 2 ^ bitOf x y := by
  simp [Nat.shiftLeft_eq, bitOf, pow_add]

theorem render_dot_buffer (sb : Stencil) (x y fgc : ℕ) (i b : ℕ) :
    ((render_dot sb x y fgc).buffer i).testBit b =
      (((sb.buffer i).testBit b) ||
        (decide (i = cellOf (sb.xdots / VT_CELL_XDOTS) x y) && decide (b = bitOf x y))) := by
  unfold render_dot
  simp only [cellOf]
  by_cases h : i = (y / VT_CELL_YDOTS) * (sb.xdots / VT_CELL_XDOTS) + x / VT_CELL_XDOTS
  · simp [h, render_dot_stencil_bit, Nat.testBit_lor, Nat.testBit_two_pow, eq_comm]
  · simp [h]

theorem render_dot_fgcolors (sb : Stencil) (x y fgc : ℕ) (i : ℕ) :
    (render_dot sb x y fgc).fgcolors i =
      if i = cellOf (sb.xdots / VT_CELL_XDOTS) x y then fgc else sb.fgcolors i := by
  unfold render_dot cellOf
  simp

@[simp] theorem render_dot_textoverlay (sb : Stencil) (x y fgc : ℕ) :
    (render_dot sb x y fgc).textoverlay = sb.textoverlay := rfl

@[simp] theorem render_dot_xdots (sb : Stencil) (x y fgc : ℕ) :
    (render_dot sb x y fgc).xdots = sb.xdots := rfl

@[simp] theorem render_dot_ydots (sb : Stencil) (x y fgc : ℕ) :
    (render_dot sb x y fgc).ydots = sb.ydots := rfl

@[simp] theorem applyDots_nil (fgc : ℕ) (sb : Stencil) : applyDots fgc sb [] = sb := rfl

@[simp] theorem applyDots_cons (fgc : ℕ) (sb : Stencil) (p : ℤ × ℤ) (ps : List (ℤ × ℤ)) :
    applyDots fgc sb (p :: ps) = applyDots fgc (plotDot fgc sb p) ps := rfl

@[simp] theorem applyDots_xdots (fgc : ℕ) (sb : Stencil) (ps : List (ℤ × ℤ)) :
    (applyDots fgc sb ps).xdots = sb.xdots := by
  induction ps generalizing sb with
  | nil => rfl
  | cons p ps ih => simp [ih, plotDot]

@[simp] theorem applyDots_ydots (fgc : ℕ) (sb : Stencil) (ps : List (ℤ × ℤ)) :
    (applyDots fgc sb ps).ydots = sb.ydots := by
  induction ps generalizing sb with
  | nil => rfl
  | cons p ps ih => simp [ih, plotDot]

@[simp] theorem applyDots_textoverlay (fgc : ℕ) (sb : Stencil) (ps : List (ℤ × ℤ)) :
    (applyDots fgc sb ps).textoverlay = sb.textoverlay := by
  induction ps generalizing sb with
  | nil => rfl
  | cons p ps ih => simp [ih, plotDot]

theorem applyDots_buffer (fgc : ℕ) (sb : Stencil) (ps : List (ℤ × ℤ)) (i b : ℕ) :
    ((applyDots fgc sb ps).buffer i).testBit b =
      (((sb.buffer i).testBit b) ||
        ps.any (fun p =>
          decide (i = cellOf (sb.xdots / VT_CELL_XDOTS) p.1.toNat p.2.toNat) &&
          decide (b = bitOf p.1.toNat p.2.toNat))) := by
  induction ps generalizing sb with
  | nil => simp
  | cons p ps ih =>
      simp only [applyDots_cons, List.any_cons]
      rw [ih]
      simp only [plotDot, render_dot_buffer, render_dot_xdots]
      cases h1 : (sb.buffer i).testBit b <;> simp [h1, Bool.or_assoc]

theorem applyDots_fgcolors (fgc : ℕ) (sb : Stencil) (ps : List (ℤ × ℤ)) (i : ℕ) :
    (applyDots fgc sb ps).fgcolors i =
      if ps.any (fun p => decide (i = cellOf (sb.xdots / VT_CELL_XDOTS) p.1.toNat p.2.toNat))
      then fgc else sb.fgcolors i := by
  induction ps generalizing sb with
  | nil => simp
  | cons p ps ih =>
      simp only [applyDots_cons, List.any_cons]
      rw [ih]
      simp only [plotDot, render_dot_fgcolors, render_dot_xdots]
      by_cases h : i = cellOf (sb.xdots / VT_CELL_XDOTS) p.1.toNat p.2.toNat
      · simp [h]
      · have hd : decide (i = cellOf (sb.xdots / VT_CELL_XDOTS) p.1.toNat p.2.toNat) = false := by
          simpa using h
        simp only [if_neg h, hd, Bool.false_or]

/-- Two dot lists with the same members produce the same stencil
(`render_dot` only ORs mask bits and overwrites `fgcolors` with the one
color `fgc` shared by the whole list). -/
theorem applyDots_congr (fgc : ℕ) (sb : Stencil) (ps qs : List (ℤ × ℤ))
    (h : ∀ p, p ∈ ps ↔ p ∈ qs) : applyDots fgc sb ps = applyDots fgc sb qs := by
  have hany : ∀ f : ℤ × ℤ → Bool, ps.any f = qs.any f := by
    intro f
    cases hq : qs.any f
    · simp only [List.any_eq_false] at hq ⊢
      intro p hp
      exact hq p ((h p).mp hp)
    · simp only [List.any_eq_true] at hq ⊢
      obtain ⟨p, hp, hf⟩ := hq
      exact ⟨p, (h p).mpr hp, hf⟩
  ext i
  · simp
  · simp
  · exact Nat.eq_of_testBit_eq fun b => by
      rw [applyDots_buffer, applyDots_buffer, hany]
  · rw [applyDots_fgcolors, applyDots_fgcolors, hany]
  · simp

/-- C3 (counterexample): the conversion formula is not its own inverse:
applying it twice to the internal mask `0x08` gives `0x20`, not `0x08`
(internal bit 3 goes to Braille bit 6, and a second application sends
bit 6 to bit 5). -/
theorem braille_not_involutive_at_8 : braille (braille 8) = 32 ∧ braille (braille 8) ≠ 8 := by
  decide

set_option maxRecDepth 4000 in
/-- C3 (amended): for every byte `m` in 0..255 the conversion yields a
Braille byte in 0x00..0xFF and the map is a bijection on bytes; its inverse,
however, is the distinct permutation `brailleInv` (bits 3..5 shifted back up,
bit 6 back to bit 3), not `braille` itself. -/
theorem braille_bijection :
    (∀ m, m < 256 → braille m < 256 ∧ brailleInv (braille m) = m) ∧
    (∀ b, b < 256 → braille (brailleInv b) = b) := by
  decide

/-- Witness for `braille_bijection` at concrete bytes. -/
theorem braille_bijection_witness :
    braille 0x12 < 256 ∧ brailleInv (braille 0x12) = 0x12 ∧ braille (brailleInv 0x40) = 0x40 :=
  ⟨(braille_bijection.1 0x12 (by decide)).1, (braille_bijection.1 0x12 (by decide)).2,
    braille_bijection.2 0x40 (by decide)⟩

/-! ## C8: `vtr_render_dot[c]` clipping and single-bit effect -/
theorem euclid_cell_unique {nc u v s t : ℕ} (hs : s < nc) (ht : t < nc)
    (h : u * nc + s = v * nc + t) : u = v ∧ s = t := by
  have hnc : 0 < nc := Nat.lt_of_le_of_lt (Nat.zero_le s) hs
  constructor
  · have h1 : (u * nc + s) / nc = u := by
      rw [Nat.mul_comm u nc, Nat.mul_add_div hnc, Nat.div_eq_of_lt hs, Nat.add_zero]
    have h2 : (v * nc + t) / nc = v := by
      rw [Nat.mul_comm v nc, Nat.mul_add_div hnc, Nat.div_eq_of_lt ht, Nat.add_zero]
    rw [← h1, h, h2]
  · have h1 : (u * nc + s) % nc = s := by
      rw [Nat.mul_comm u nc, Nat.mul_add_mod, Nat.mod_eq_of_lt hs]
    have h2 : (v * nc + t) % nc = t := by
      rw [Nat.mul_comm v nc, Nat.mul_add_mod, Nat.mod_eq_of_lt ht]
    rw [← h1, h, h2]

/-- The (cell, bit) address of a dot determines the dot, on any stencil
width that bounds the x coordinates. -/
theorem cellOf_bitOf_inj {nc x y a b : ℕ} (hx : x < nc * VT_CELL_XDOTS)
    (ha : a < nc * VT_CELL_XDOTS)
    (hcell : cellOf nc x y = cellOf nc a b) (hbit : bitOf x y = bitOf a b) :
    x = a ∧ y = b := by
  unfold cellOf at hcell
  unfold bitOf at hbit
  unfold VT_CELL_XDOTS VT_CELL_YDOTS at *
  have hy4 : y % 4 < 4 := Nat.mod_lt _ (by omega)
  have hb4 : b % 4 < 4 := Nat.mod_lt _ (by omega)
  have hx2 : x % 2 < 2 := Nat.mod_lt _ (by omega)
  have ha2 : a % 2 < 2 := Nat.mod_lt _ (by omega)
  have hmod : y % 4 = b % 4 ∧ x % 2 = a % 2 := by omega
  have hxd : x / 2 < nc := by omega
  have had : a / 2 < nc := by omega
  have hdiv := euclid_cell_unique hxd had hcell
  have hxe := Nat.div_add_mod x 2
  have hae := Nat.div_add_mod a 2
  have hye := Nat.div_add_mod y 4
  have hbe := Nat.div_add_mod b 4
  omega

/-- C8: out-of-range coordinates leave the canvas (all three arrays of both
stencils) untouched, for `vtr_render_dot` and `vtr_render_dotc` with any
color; in-range coordinates update the current stencil by setting exactly
the one mask bit of `(x, y)` and overwriting that cell's foreground color,
leaving the overlay and the other stencil alone. -/
theorem vtr_render_dot_spec (vt : Canvas) (x y : ℤ) (fgc : ℕ) :
    ((x < 0 ∨ (vt.xdots : ℤ) ≤ x ∨ y < 0 ∨ (vt.ydots : ℤ) ≤ y) →
      vtr_render_dotc vt x y fgc = vt ∧ vtr_render_dot vt x y = vt) ∧
    (0 ≤ x → x < (vt.xdots : ℤ) → 0 ≤ y → y < (vt.ydots : ℤ) →
      (∀ i b, ((curSb (vtr_render_dotc vt x y fgc)).buffer i).testBit b =
          ((((curSb vt).buffer i).testBit b) ||
            (decide (i = cellOf ((curSb vt).xdots / VT_CELL_XDOTS) x.toNat y.toNat) &&
             decide (b = bitOf x.toNat y.toNat)))) ∧
      (∀ i, (curSb (vtr_render_dotc vt x y fgc)).fgcolors i =
          if i = cellOf ((curSb vt).xdots / VT_CELL_XDOTS) x.toNat y.toNat
          then fgc else (curSb vt).fgcolors i) ∧
      (curSb (vtr_render_dotc vt x y fgc)).textoverlay = (curSb vt).textoverlay ∧
      prevSb (vtr_render_dotc vt x y fgc) = prevSb vt) := by
  constructor
  · intro hout
    have hpt : point_test vt x y = false := by
      unfold point_test
      rcases hout with h | h | h | h <;>
        simp [h, decide_eq_false, not_le.mpr, not_lt.mpr]
    constructor
    · unfold vtr_render_dotc
      rw [hpt]
      simp
    · unfold vtr_render_dot vtr_render_dotc
      rw [hpt]
      simp
  · intro h0x hx h0y hy
    have hpt : point_test vt x y = true := by
      unfold point_test
      simp [h0x, hx, h0y, hy]
    unfold vtr_render_dotc
    rw [hpt]
    simp only [if_true, curSb_updateCur, prevSb_updateCur]
    refine ⟨fun i b => ?_, fun i => ?_, ?_, by trivial⟩
    · exact render_dot_buffer (curSb vt) x.toNat y.toNat fgc i b
    · exact render_dot_fgcolors (curSb vt) x.toNat y.toNat fgc i
    · exact render_dot_textoverlay (curSb vt) x.toNat y.toNat fgc

/-- Witness for `vtr_render_dot_spec` on a 40x80 canvas: `(-1, 0)` is
discarded, `(3, 5)` sets bit `1 + 4 = 5` of cell `1 * 80 + 1 = 81` and
paints that cell's foreground. -/
theorem vtr_render_dot_spec_witness :
    (vtr_render_dotc (vtr_canvas_create 40 80) (-1) 0 2 = vtr_canvas_create 40 80) ∧
    ((curSb (vtr_render_dotc (vtr_canvas_create 40 80) 3 5 2)).buffer 81).testBit 5 = true ∧
    (curSb (vtr_render_dotc (vtr_canvas_create 40 80) 3 5 2)).fgcolors 81 = 2 := by
  refine ⟨((vtr_render_dot_spec (vtr_canvas_create 40 80) (-1) 0 2).1 (by decide)).1, ?_, ?_⟩
  · have h := ((vtr_render_dot_spec (vtr_canvas_create 40 80) 3 5 2).2
      (by decide) (by decide) (by decide) (by decide)).1 81 5
    rw [h]
    decide
  · have h := (((vtr_render_dot_spec (vtr_canvas_create 40 80) 3 5 2).2
      (by decide) (by decide) (by decide) (by decide)).2).1 81
    rw [h]
    decide

theorem printLoop_buffer (ncols : ℕ) (sb : Stencil) (row col : ℕ) (str : List ℕ) :
    (printLoop ncols sb row col str).buffer = sb.buffer ∧
    (printLoop ncols sb row col str).fgcolors = sb.fgcolors ∧
    (printLoop ncols sb row col str).xdots = sb.xdots ∧
    (printLoop ncols sb row col str).ydots = sb.ydots := by
  induction str generalizing sb col with
  | nil => exact ⟨rfl, rfl, rfl, rfl⟩
  | cons c rest ih =>
      unfold printLoop
      by_cases h : col < ncols ∧ c ≠ 0
      · rw [if_pos h]
        exact ih (print_char sb row col c) (col + 1)
      · rw [if_neg h]
        exact ⟨rfl, rfl, rfl, rfl⟩

/-- C9: for an in-range starting cell, `vtr_print_text` returns success
(even when the string is longer than the rest of the row) and changes only
the current stencil's `textoverlay`: the back buffer's mask and color
arrays and the whole front stencil are untouched. -/
theorem vtr_print_text_spec (vt : Canvas) (row col : ℕ) (str : List ℕ)
    (hrow : row < vt.nrows) (hcol : col < vt.ncols) :
    (vtr_print_text vt row col str).1 = .ok ∧
    (curSb (vtr_print_text vt row col str).2).buffer = (curSb vt).buffer ∧
    (curSb (vtr_print_text vt row col str).2).fgcolors = (curSb vt).fgcolors ∧
    prevSb (vtr_print_text vt row col str).2 = prevSb vt := by
  unfold vtr_print_text
  rw [if_neg (by omega)]
  refine ⟨rfl, ?_, ?_, by simp⟩
  · simp only [curSb_updateCur]
    exact (printLoop_buffer vt.ncols (curSb vt) row col str).1
  · simp only [curSb_updateCur]
    exact (printLoop_buffer vt.ncols (curSb vt) row col str).2.1

/-- Witness for `vtr_print_text_spec`: a 3-byte string at the last column of
a 2x2 canvas is truncated after one character and still succeeds without
touching mask, colors, or the front stencil. -/
theorem vtr_print_text_spec_witness :
    (vtr_print_text (vtr_canvas_create 2 2) 0 1 [65, 66, 67]).1 = .ok ∧
    (curSb (vtr_print_text (vtr_canvas_create 2 2) 0 1 [65, 66, 67]).2).buffer =
      (curSb (vtr_canvas_create 2 2)).buffer ∧
    (curSb (vtr_print_text (vtr_canvas_create 2 2) 0 1 [65, 66, 67]).2).fgcolors =
      (curSb (vtr_canvas_create 2 2)).fgcolors ∧
    prevSb (vtr_print_text (vtr_canvas_create 2 2) 0 1 [65, 66, 67]).2 =
      prevSb (vtr_canvas_create 2 2) :=
  vtr_print_text_spec (vtr_canvas_create 2 2) 0 1 [65, 66, 67] (by decide) (by decide)

@[simp] theorem roundf_intCast (n : ℤ) : roundf (n : ℚ) = n := by
  unfold roundf
  by_cases h : (n : ℚ) < 0
  · rw [if_pos h, ← Int.cast_neg, round_intCast, neg_neg]
  · rw [if_neg h, round_intCast]

/-! ### Closed forms of the marches -/
theorem hMarch_eq (y0 hdir : ℤ) (hh : hdir = 1 ∨ hdir = -1) :
    ∀ (n : ℕ) (x : ℤ),
      hMarch y0 hdir (x + hdir * ((n : ℤ) + 1)) (n + 1) x =
        (List.range (n + 1)).map (fun k : ℕ => (x + hdir * (k : ℤ), y0)) := by
  intro n
  induction n with
  | zero =>
      intro x
      have hne : ¬(x = x + hdir * ((0 : ℤ) + 1)) := by
        rcases hh with h | h <;> subst h <;> omega
      simp only [hMarch, Nat.cast_zero, if_neg hne,
        show List.range 1 = [0] from rfl, List.map_cons, List.map_nil,
        Nat.cast_zero, mul_zero, add_zero]
  | succ n ih =>
      intro x
      have hne : ¬(x = x + hdir * (((n + 1 : ℕ) : ℤ) + 1)) := by
        rcases hh with h | h <;> subst h <;> push_cast <;> omega
      have hstop : x + hdir * (((n + 1 : ℕ) : ℤ) + 1) = (x + hdir) + hdir * ((n : ℤ) + 1) := by
        push_cast
        ring
      rw [hMarch.eq_def]
      simp only [if_neg hne]
      rw [hstop, ih (x + hdir)]
      conv_rhs => rw [List.range_succ_eq_map]
      rw [List.map_cons, List.map_map]
      congr 1
      · simp
      · apply List.map_congr_left
        intro k _
        simp only [Function.comp_apply, Prod.mk.injEq, and_true]
        push_cast
        ring

theorem vMarch_eq (x0 vdir : ℤ) (hh : vdir = 1 ∨ vdir = -1) :
    ∀ (n : ℕ) (y : ℤ),
      vMarch x0 vdir (y + vdir * ((n : ℤ) + 1)) (n + 1) y =
        (List.range (n + 1)).map (fun k : ℕ => (x0, y + vdir * (k : ℤ))) := by
  intro n
  induction n with
  | zero =>
      intro y
      have hne : ¬(y = y + vdir * ((0 : ℤ) + 1)) := by
        rcases hh with h | h <;> subst h <;> omega
      simp only [vMarch, Nat.cast_zero, if_neg hne,
        show List.range 1 = [0] from rfl, List.map_cons, List.map_nil,
        Nat.cast_zero, mul_zero, add_zero]
  | succ n ih =>
      intro y
      have hne : ¬(y = y + vdir * (((n + 1 : ℕ) : ℤ) + 1)) := by
        rcases hh with h | h <;> subst h <;> push_cast <;> omega
      have hstop : y + vdir * (((n + 1 : ℕ) : ℤ) + 1) = (y + vdir) + vdir * ((n : ℤ) + 1) := by
        push_cast
        ring
      rw [vMarch.eq_def]
      simp only [if_neg hne]
      rw [hstop, ih (y + vdir)]
      conv_rhs => rw [List.range_succ_eq_map]
      rw [List.map_cons, List.map_map]
      congr 1
      · simp
      · apply List.map_congr_left
        intro k _
        simp only [Function.comp_apply, Prod.mk.injEq, true_and]
        push_cast
        ring

theorem dMarch_eq (hdir vdir : ℤ) (hh : hdir = 1 ∨ hdir = -1) :
    ∀ (n : ℕ) (x y : ℤ),
      dMarch hdir vdir (x + hdir * ((n : ℤ) + 1)) (n + 1) x y =
        (List.range (n + 1)).map (fun k : ℕ => (x + hdir * (k : ℤ), y + vdir * (k : ℤ))) := by
  intro n
  induction n with
  | zero =>
      intro x y
      have hne : ¬(x = x + hdir * ((0 : ℤ) + 1)) := by
        rcases hh with h | h <;> subst h <;> omega
      simp only [dMarch, Nat.cast_zero, if_neg hne,
        show List.range 1 = [0] from rfl, List.map_cons, List.map_nil,
        Nat.cast_zero, mul_zero, add_zero]
  | succ n ih =>
      intro x y
      have hne : ¬(x = x + hdir * (((n + 1 : ℕ) : ℤ) + 1)) := by
        rcases hh with h | h <;> subst h <;> push_cast <;> omega
      have hstop : x + hdir * (((n + 1 : ℕ) : ℤ) + 1) = (x + hdir) + hdir * ((n : ℤ) + 1) := by
        push_cast
        ring
      rw [dMarch.eq_def]
      simp only [if_neg hne]
      rw [hstop, ih (x + hdir) (y + vdir)]
      conv_rhs => rw [List.range_succ_eq_map]
      rw [List.map_cons, List.map_map]
      congr 1
      · simp
      · apply List.map_congr_left
        intro k _
        simp only [Function.comp_apply, Prod.mk.injEq]
        refine ⟨by push_cast; ring, by push_cast; ring⟩

theorem xMarch_eq (m : ℚ) (x1 y1 hdir : ℤ) (hh : hdir = 1 ∨ hdir = -1) :
    ∀ (n : ℕ) (x y : ℤ) (yf : ℚ),
      xMarch m x1 y1 hdir (x + hdir * ((n : ℤ) + 1)) (n + 1) x y yf =
        ((x, y) :: (if yf - (y : ℚ) = -(1 / 2 : ℚ) then [(x, y - 1)] else [])) ++
          (List.range n).flatMap (fun k : ℕ => xStep m x1 y1 (x + hdir * ((k : ℤ) + 1))) := by
  intro n
  induction n with
  | zero =>
      intro x y yf
      have hne : ¬(x = x + hdir * ((0 : ℤ) + 1)) := by
        rcases hh with h | h <;> subst h <;> omega
      simp only [xMarch, Nat.cast_zero, if_neg hne, List.range_zero, List.flatMap_nil,
        List.append_nil]
  | succ n ih =>
      intro x y yf
      have hne : ¬(x = x + hdir * (((n + 1 : ℕ) : ℤ) + 1)) := by
        rcases hh with h | h <;> subst h <;> push_cast <;> omega
      have hstop : x + hdir * (((n + 1 : ℕ) : ℤ) + 1) = (x + hdir) + hdir * ((n : ℤ) + 1) := by
        push_cast
        ring
      rw [xMarch.eq_def]
      simp only [if_neg hne]
      rw [hstop, ih (x + hdir)]
      have hhead : ((x + hdir, roundf (lineY m x1 y1 (x + hdir))) ::
          (if lineY m x1 y1 (x + hdir) - ((roundf (lineY m x1 y1 (x + hdir)) : ℤ) : ℚ) =
              -(1 / 2 : ℚ)
            then [(x + hdir, roundf (lineY m x1 y1 (x + hdir)) - 1)] else [])) =
          xStep m x1 y1 (x + hdir) := rfl
      rw [hhead]
      congr 1
      conv_rhs => rw [List.range_succ_eq_map]
      rw [List.flatMap_cons, List.flatMap_map]
      congr 1
      · congr 1
        push_cast
        ring
      · apply List.flatMap_congr
        intro k _
        congr 1
        push_cast
        ring

theorem yMarch_eq (m : ℚ) (x1 y1 vdir : ℤ) (hh : vdir = 1 ∨ vdir = -1) :
    ∀ (n : ℕ) (y x : ℤ) (xf : ℚ),
      yMarch m x1 y1 vdir (y + vdir * ((n : ℤ) + 1)) (n + 1) y x xf =
        ((x, y) :: (if xf - (x : ℚ) = -(1 / 2 : ℚ) then [(x - 1, y)] else [])) ++
          (List.range n).flatMap (fun k : ℕ => yStep m x1 y1 (y + vdir * ((k : ℤ) + 1))) := by
  intro n
  induction n with
  | zero =>
      intro y x xf
      have hne : ¬(y = y + vdir * ((0 : ℤ) + 1)) := by
        rcases hh with h | h <;> subst h <;> omega
      simp only [yMarch, Nat.cast_zero, if_neg hne, List.range_zero, List.flatMap_nil,
        List.append_nil]
  | succ n ih =>
      intro y x xf
      have hne : ¬(y = y + vdir * (((n + 1 : ℕ) : ℤ) + 1)) := by
        rcases hh with h | h <;> subst h <;> push_cast <;> omega
      have hstop : y + vdir * (((n + 1 : ℕ) : ℤ) + 1) = (y + vdir) + vdir * ((n : ℤ) + 1) := by
        push_cast
        ring
      rw [yMarch.eq_def]
      simp only [if_neg hne]
      rw [hstop, ih (y + vdir)]
      have hhead : ((roundf (lineX m x1 y1 (y + vdir)), y + vdir) ::
          (if lineX m x1 y1 (y + vdir) - ((roundf (lineX m x1 y1 (y + vdir)) : ℤ) : ℚ) =
              -(1 / 2 : ℚ)
            then [(roundf (lineX m x1 y1 (y + vdir)) - 1, y + vdir)] else [])) =
          yStep m x1 y1 (y + vdir) := rfl
      rw [hhead]
      congr 1
      conv_rhs => rw [List.range_succ_eq_map]
      rw [List.flatMap_cons, List.flatMap_map]
      congr 1
      · congr 1
        push_cast
        ring
      · apply List.flatMap_congr
        intro k _
        congr 1
        push_cast
        ring

/-- The slope is the same whichever endpoint comes first. -/
theorem calc_slope_symm (x0 y0 x1 y1 : ℤ) :
    calc_slope x1 y1 x0 y0 = calc_slope x0 y0 x1 y1 := by
  unfold calc_slope
  by_cases h : x1 = x0
  · rw [if_pos h, if_pos h.symm]
  · rw [if_neg h, if_neg (fun hc => h hc.symm)]
    rw [← neg_sub ((y1 : ℚ)) ((y0 : ℚ)), ← neg_sub ((x1 : ℚ)) ((x0 : ℚ)), neg_div_neg_eq]

theorem lineY_anchor (m : ℚ) (x0 y0 x1 y1 : ℤ)
    (hm : m * ((x0 : ℚ) - (x1 : ℚ)) = (y0 : ℚ) - (y1 : ℚ)) (t : ℤ) :
    lineY m x0 y0 t = lineY m x1 y1 t := by
  unfold lineY
  linear_combination -hm

theorem lineX_anchor (m : ℚ) (x0 y0 x1 y1 : ℤ) (hm0 : m ≠ 0)
    (hm : m * ((x0 : ℚ) - (x1 : ℚ)) = (y0 : ℚ) - (y1 : ℚ)) (t : ℤ) :
    lineX m x0 y0 t = lineX m x1 y1 t := by
  unfold lineX
  field_simp
  linear_combination hm

theorem xStep_anchor (m : ℚ) (x0 y0 x1 y1 : ℤ)
    (hm : m * ((x0 : ℚ) - (x1 : ℚ)) = (y0 : ℚ) - (y1 : ℚ)) (u : ℤ) :
    xStep m x0 y0 u = xStep m x1 y1 u := by
  unfold xStep
  rw [lineY_anchor m x0 y0 x1 y1 hm u]

theorem yStep_anchor (m : ℚ) (x0 y0 x1 y1 : ℤ) (hm0 : m ≠ 0)
    (hm : m * ((x0 : ℚ) - (x1 : ℚ)) = (y0 : ℚ) - (y1 : ℚ)) (u : ℤ) :
    yStep m x0 y0 u = yStep m x1 y1 u := by
  unfold yStep
  rw [lineX_anchor m x0 y0 x1 y1 hm0 hm u]

/-- Splitting the first iteration off a `flatMap` over `range (n+1)`. -/
theorem range_flatMap_succ {α : Type} (n : ℕ) (g : ℕ → List α) :
    (List.range (n + 1)).flatMap g = g 0 ++ (List.range n).flatMap (fun k => g (k + 1)) := by
  rw [List.range_succ_eq_map, List.flatMap_cons, List.flatMap_map]

/-- Direction and step-count bookkeeping for the marches. -/
theorem dir_facts (x0 x1 : ℤ) (hne : x0 ≠ x1) :
    ((if x0 < x1 then (1 : ℤ) else -1) = 1 ∨ (if x0 < x1 then (1 : ℤ) else -1) = -1) ∧
    x1 = x0 + (if x0 < x1 then (1 : ℤ) else -1) * (((x1 - x0).natAbs : ℕ) : ℤ) := by
  rcases lt_or_gt_of_ne hne with h | h
  · rw [if_pos h]
    constructor
    · exact Or.inl rfl
    · omega
  · rw [if_neg (not_lt.mpr (le_of_lt h))]
    constructor
    · exact Or.inr rfl
    · omega

theorem exists_le_flip (n : ℕ) (P : ℕ → Prop) :
    (∃ k, k ≤ n ∧ P k) ↔ (∃ k, k ≤ n ∧ P (n - k)) := by
  constructor
  · rintro ⟨k, hk, h⟩
    exact ⟨n - k, Nat.sub_le _ _, by rwa [Nat.sub_sub_self hk]⟩
  · rintro ⟨k, hk, h⟩
    exact ⟨n - k, Nat.sub_le _ _, h⟩

/-- Reindexing `k ↦ n - k` for marches walked from the opposite end. -/
theorem exists_le_reindex (n : ℕ) (P : ℤ → Prop) (x0 hdir : ℤ) :
    (∃ k : ℕ, k ≤ n ∧ P (x0 + hdir * (k : ℤ))) ↔
      (∃ k : ℕ, k ≤ n ∧ P ((x0 + hdir * (n : ℤ)) - hdir * (k : ℤ))) := by
  constructor
  · rintro ⟨k, hk, hp⟩
    refine ⟨n - k, Nat.sub_le n k, ?_⟩
    have hcast : ((n - k : ℕ) : ℤ) = (n : ℤ) - (k : ℤ) := by
      exact_mod_cast Int.ofNat_sub hk
    rw [hcast]
    have : x0 + hdir * (n : ℤ) - hdir * ((n : ℤ) - (k : ℤ)) = x0 + hdir * (k : ℤ) := by ring
    rw [this]
    exact hp
  · rintro ⟨k, hk, hp⟩
    refine ⟨n - k, Nat.sub_le n k, ?_⟩
    have hcast : ((n - k : ℕ) : ℤ) = (n : ℤ) - (k : ℤ) := by
      exact_mod_cast Int.ofNat_sub hk
    rw [hcast]
    have : x0 + hdir * ((n : ℤ) - (k : ℤ)) = x0 + hdir * (n : ℤ) - hdir * (k : ℤ) := by ring
    rw [this]
    exact hp

theorem dir_flip (x0 x1 : ℤ) (hne : x0 ≠ x1) :
    (if x1 < x0 then (1 : ℤ) else -1) = -(if x0 < x1 then (1 : ℤ) else -1) := by
  rcases lt_or_gt_of_ne hne with h | h
  · rw [if_neg (not_lt.mpr (le_of_lt h)), if_pos h]
  · rw [if_pos h, if_neg (not_lt.mpr (le_of_lt h))]
    norm_num

/-! ### Membership forms of the march calls made by `scanLineDots` -/
theorem hMarch_mem_of (y0 hdir xa xb : ℤ) (n : ℕ) (hh : hdir = 1 ∨ hdir = -1)
    (hrel : xb = xa + hdir * (n : ℤ)) (p : ℤ × ℤ) :
    p ∈ hMarch y0 hdir (xb + hdir) (n + 1) xa ↔
      ∃ k : ℕ, k ≤ n ∧ p = (xa + hdir * (k : ℤ), y0) := by
  have hstop : xb + hdir = xa + hdir * ((n : ℤ) + 1) := by rw [hrel]; ring
  rw [hstop, hMarch_eq y0 hdir hh n xa]
  simp only [List.mem_map, List.mem_range, Nat.lt_succ_iff]
  exact exists_congr fun k => and_congr_right fun _ => eq_comm

theorem vMarch_mem_of (x0 vdir ya yb : ℤ) (n : ℕ) (hh : vdir = 1 ∨ vdir = -1)
    (hrel : yb = ya + vdir * (n : ℤ)) (p : ℤ × ℤ) :
    p ∈ vMarch x0 vdir (yb + vdir) (n + 1) ya ↔
      ∃ k : ℕ, k ≤ n ∧ p = (x0, ya + vdir * (k : ℤ)) := by
  have hstop : yb + vdir = ya + vdir * ((n : ℤ) + 1) := by rw [hrel]; ring
  rw [hstop, vMarch_eq x0 vdir hh n ya]
  simp only [List.mem_map, List.mem_range, Nat.lt_succ_iff]
  exact exists_congr fun k => and_congr_right fun _ => eq_comm

theorem dMarch_mem_of (hdir vdir xa xb ya : ℤ) (n : ℕ) (hh : hdir = 1 ∨ hdir = -1)
    (hrel : xb = xa + hdir * (n : ℤ)) (p : ℤ × ℤ) :
    p ∈ dMarch hdir vdir (xb + hdir) (n + 1) xa ya ↔
      ∃ k : ℕ, k ≤ n ∧ p = (xa + hdir * (k : ℤ), ya + vdir * (k : ℤ)) := by
  have hstop : xb + hdir = xa + hdir * ((n : ℤ) + 1) := by rw [hrel]; ring
  rw [hstop, dMarch_eq hdir vdir hh n xa ya]
  simp only [List.mem_map, List.mem_range, Nat.lt_succ_iff]
  exact exists_congr fun k => and_congr_right fun _ => eq_comm

theorem intCast_ne_half (z : ℤ) : ¬((z : ℚ) = 1 / 2) := by
  intro hcon
  have h2 : ((2 * z : ℤ) : ℚ) = ((1 : ℤ) : ℚ) := by push_cast; linarith
  have := Int.cast_injective h2
  omega

theorem xMarch_mem_of (m : ℚ) (x1 y1 hdir xa ya : ℤ) (n : ℕ) (hh : hdir = 1 ∨ hdir = -1)
    (hrel : x1 = xa + hdir * (n : ℤ)) (hline : lineY m x1 y1 xa = (ya : ℚ)) (p : ℤ × ℤ) :
    p ∈ xMarch m x1 y1 hdir (x1 + hdir) (n + 1) xa ya 0 ↔
      ∃ k : ℕ, k ≤ n ∧ p ∈ xStep m x1 y1 (xa + hdir * (k : ℤ)) := by
  have hstop : x1 + hdir = xa + hdir * ((n : ℤ) + 1) := by rw [hrel]; ring
  rw [hstop, xMarch_eq m x1 y1 hdir hh n xa ya 0]
  have htie0 : ¬((0 : ℚ) - (ya : ℚ) = -(1 / 2 : ℚ)) := by
    intro hcon
    exact intCast_ne_half ya (by linarith)
  rw [if_neg htie0]
  have hhead : ((xa, ya) : ℤ × ℤ) :: ([] : List (ℤ × ℤ)) = xStep m x1 y1 xa := by
    unfold xStep
    rw [hline, roundf_intCast]
    rw [if_neg (by norm_num)]
  have h0 : xStep m x1 y1 xa = xStep m x1 y1 (xa + hdir * ((0 : ℕ) : ℤ)) := by
    norm_num
  have hsucc : (fun k : ℕ => xStep m x1 y1 (xa + hdir * ((k : ℤ) + 1))) =
      fun k : ℕ => xStep m x1 y1 (xa + hdir * ((k + 1 : ℕ) : ℤ)) := by
    funext k
    congr 1
  rw [hhead, h0, hsucc,
    ← range_flatMap_succ n (fun k : ℕ => xStep m x1 y1 (xa + hdir * (k : ℤ)))]
  simp only [List.mem_flatMap, List.mem_range, Nat.lt_succ_iff]

theorem yMarch_mem_of (m : ℚ) (x1 y1 vdir ya xa : ℤ) (n : ℕ) (hh : vdir = 1 ∨ vdir = -1)
    (hrel : y1 = ya + vdir * (n : ℤ)) (hline : lineX m x1 y1 ya = (xa : ℚ)) (p : ℤ × ℤ) :
    p ∈ yMarch m x1 y1 vdir (y1 + vdir) (n + 1) ya xa 0 ↔
      ∃ k : ℕ, k ≤ n ∧ p ∈ yStep m x1 y1 (ya + vdir * (k : ℤ)) := by
  have hstop : y1 + vdir = ya + vdir * ((n : ℤ) + 1) := by rw [hrel]; ring
  rw [hstop, yMarch_eq m x1 y1 vdir hh n ya xa 0]
  have htie0 : ¬((0 : ℚ) - (xa : ℚ) = -(1 / 2 : ℚ)) := by
    intro hcon
    exact intCast_ne_half xa (by linarith)
  rw [if_neg htie0]
  have hhead : ((xa, ya) : ℤ × ℤ) :: ([] : List (ℤ × ℤ)) = yStep m x1 y1 ya := by
    unfold yStep
    rw [hline, roundf_intCast]
    rw [if_neg (by norm_num)]
  have h0 : yStep m x1 y1 ya = yStep m x1 y1 (ya + vdir * ((0 : ℕ) : ℤ)) := by
    norm_num
  have hsucc : (fun k : ℕ => yStep m x1 y1 (ya + vdir * ((k : ℤ) + 1))) =
      fun k : ℕ => yStep m x1 y1 (ya + vdir * ((k + 1 : ℕ) : ℤ)) := by
    funext k
    congr 1
  rw [hhead, h0, hsucc,
    ← range_flatMap_succ n (fun k : ℕ => yStep m x1 y1 (ya + vdir * (k : ℤ)))]
  simp only [List.mem_flatMap, List.mem_range, Nat.lt_succ_iff]

/-! ### `vtr_scan_line` is symmetric in its endpoints (claim C6) -/
theorem scanLineDots_of_vertical (x0 y0 x1 y1 : ℤ) (hx : x1 = x0) :
    scanLineDots x0 y0 x1 y1 =
      vMarch x0 (if y0 < y1 then (1 : ℤ) else -1) (y1 + (if y0 < y1 then (1 : ℤ) else -1))
        ((y1 - y0).natAbs + 1) y0 := by
  unfold scanLineDots calc_slope
  rw [if_pos hx]

theorem scanLineDots_of_some (x0 y0 x1 y1 : ℤ) (m : ℚ)
    (hm : calc_slope x0 y0 x1 y1 = some m) :
    scanLineDots x0 y0 x1 y1 =
      (if m = 0 then
        hMarch y0 (if x0 < x1 then (1 : ℤ) else -1) (x1 + (if x0 < x1 then (1 : ℤ) else -1))
          ((x1 - x0).natAbs + 1) x0
      else if m = -1 ∨ m = 1 then
        dMarch (if x0 < x1 then (1 : ℤ) else -1) (if y0 < y1 then (1 : ℤ) else -1)
          (x1 + (if x0 < x1 then (1 : ℤ) else -1)) ((x1 - x0).natAbs + 1) x0 y0
      else if -1 < m ∧ m < 1 then
        xMarch m x1 y1 (if x0 < x1 then (1 : ℤ) else -1)
          (x1 + (if x0 < x1 then (1 : ℤ) else -1)) ((x1 - x0).natAbs + 1) x0 y0 0
      else
        yMarch m x1 y1 (if y0 < y1 then (1 : ℤ) else -1)
          (y1 + (if y0 < y1 then (1 : ℤ) else -1)) ((y1 - y0).natAbs + 1) y0 x0 0) := by
  unfold scanLineDots
  rw [hm]

theorem exists_flip_lin (n : ℕ) (a d b : ℤ) (hrel : b = a + d * (n : ℤ)) (P : ℤ → Prop) :
    (∃ k : ℕ, k ≤ n ∧ P (a + d * (k : ℤ))) ↔ (∃ k : ℕ, k ≤ n ∧ P (b + -d * (k : ℤ))) := by
  subst hrel
  rw [exists_le_flip n (fun k => P (a + d * (k : ℤ)))]
  apply exists_congr
  intro k
  apply and_congr_right
  intro hk
  have hc : ((n - k : ℕ) : ℤ) = (n : ℤ) - (k : ℤ) := by exact_mod_cast Int.ofNat_sub hk
  rw [hc, show a + d * ((n : ℤ) - (k : ℤ)) = (a + d * (n : ℤ)) + -d * (k : ℤ) from by ring]

theorem exists_flip_pair (n : ℕ) (xa hd ya vd : ℤ) (p : ℤ × ℤ) :
    (∃ k : ℕ, k ≤ n ∧ p = (xa + hd * (k : ℤ), ya + vd * (k : ℤ))) ↔
      (∃ k : ℕ, k ≤ n ∧
        p = ((xa + hd * (n : ℤ)) + -hd * (k : ℤ), (ya + vd * (n : ℤ)) + -vd * (k : ℤ))) := by
  rw [exists_le_flip n (fun k => p = (xa + hd * (k : ℤ), ya + vd * (k : ℤ)))]
  apply exists_congr
  intro k
  apply and_congr_right
  intro hk
  have hc : ((n - k : ℕ) : ℤ) = (n : ℤ) - (k : ℤ) := by exact_mod_cast Int.ofNat_sub hk
  rw [hc, show xa + hd * ((n : ℤ) - (k : ℤ)) = (xa + hd * (n : ℤ)) + -hd * (k : ℤ) from by ring,
    show ya + vd * ((n : ℤ) - (k : ℤ)) = (ya + vd * (n : ℤ)) + -vd * (k : ℤ) from by ring]

/-- The dots plotted by `scan_line(x0, y0, x1, y1)` and by
`scan_line(x1, y1, x0, y0)` are the same set: the clipped slope, the branch
taken, the per-step minor coordinate (exact on the line through the two
integer endpoints, so independent of which endpoint anchors the line
equation) and the half-tie doubling all agree, and only the traversal
order flips. -/
theorem scanLineDots_symm (x0 y0 x1 y1 : ℤ) (p : ℤ × ℤ) :
    p ∈ scanLineDots x0 y0 x1 y1 ↔ p ∈ scanLineDots x1 y1 x0 y0 := by
  by_cases hx : x1 = x0
  · subst hx
    rw [scanLineDots_of_vertical x1 y0 x1 y1 rfl, scanLineDots_of_vertical x1 y1 x1 y0 rfl]
    by_cases hy : y1 = y0
    · subst hy
      exact Iff.rfl
    · have hd := dir_facts y0 y1 (fun h => hy h.symm)
      have hd2 := dir_facts y1 y0 hy
      have hnn : (y0 - y1).natAbs = (y1 - y0).natAbs := by omega
      rw [hnn]
      have hrel2 := hd2.2
      rw [hnn] at hrel2
      rw [vMarch_mem_of x1 (if y0 < y1 then (1 : ℤ) else -1) y0 y1 ((y1 - y0).natAbs)
          hd.1 hd.2 p,
        vMarch_mem_of x1 (if y1 < y0 then (1 : ℤ) else -1) y1 y0 ((y1 - y0).natAbs)
          hd2.1 hrel2 p]
      rw [dir_flip y0 y1 (fun h => hy h.symm)]
      exact exists_flip_lin ((y1 - y0).natAbs) y0 (if y0 < y1 then (1 : ℤ) else -1) y1 hd.2
        (fun v => p = (x1, v))
  · have hne01 : x0 ≠ x1 := fun h => hx h.symm
    have hden : ((x1 : ℚ) - (x0 : ℚ)) ≠ 0 := by
      intro hc
      apply hx
      have h1 : (x1 : ℚ) = (x0 : ℚ) := by linarith
      exact_mod_cast h1
    have hcs : calc_slope x0 y0 x1 y1 = some (((y1 : ℚ) - y0) / ((x1 : ℚ) - x0)) := by
      unfold calc_slope
      rw [if_neg hx]
    have hcs2 : calc_slope x1 y1 x0 y0 = some (((y1 : ℚ) - y0) / ((x1 : ℚ) - x0)) := by
      rw [calc_slope_symm]
      exact hcs
    rw [scanLineDots_of_some x0 y0 x1 y1 _ hcs, scanLineDots_of_some x1 y1 x0 y0 _ hcs2]
    set m := ((y1 : ℚ) - y0) / ((x1 : ℚ) - x0) with hmdef
    have hmprod : m * ((x1 : ℚ) - x0) = (y1 : ℚ) - y0 := by
      rw [hmdef]
      exact div_mul_cancel₀ _ hden
    have hd := dir_facts x0 x1 hne01
    have hd2 := dir_facts x1 x0 hx
    have hnn : (x0 - x1).natAbs = (x1 - x0).natAbs := by omega
    by_cases hm0 : m = 0
    · rw [if_pos hm0, if_pos hm0]
      have hy10 : y1 = y0 := by
        rw [hm0] at hmprod
        have h1 : (y1 : ℚ) = (y0 : ℚ) := by linarith
        exact_mod_cast h1
      rw [hy10, hnn]
      have hrel2 := hd2.2
      rw [hnn] at hrel2
      rw [hMarch_mem_of y0 (if x0 < x1 then (1 : ℤ) else -1) x0 x1 ((x1 - x0).natAbs)
          hd.1 hd.2 p,
        hMarch_mem_of y0 (if x1 < x0 then (1 : ℤ) else -1) x1 x0 ((x1 - x0).natAbs)
          hd2.1 hrel2 p]
      rw [dir_flip x0 x1 hne01]
      exact exists_flip_lin ((x1 - x0).natAbs) x0 (if x0 < x1 then (1 : ℤ) else -1) x1 hd.2
        (fun v => p = (v, y0))
    · by_cases hm1 : m = -1 ∨ m = 1
      · rw [if_neg hm0, if_neg hm0, if_pos hm1, if_pos hm1]
        have hyx : y1 - y0 = x1 - x0 ∨ y1 - y0 = -(x1 - x0) := by
          rcases hm1 with h | h
          · right
            have h2 : ((y1 - y0 : ℤ) : ℚ) = ((-(x1 - x0) : ℤ) : ℚ) := by
              push_cast
              rw [h] at hmprod
              linarith
            exact_mod_cast h2
          · left
            have h2 : ((y1 - y0 : ℤ) : ℚ) = ((x1 - x0 : ℤ) : ℚ) := by
              push_cast
              rw [h] at hmprod
              linarith
            exact_mod_cast h2
        have hy10 : y1 ≠ y0 := by
          intro h
          rcases hyx with h2 | h2 <;> omega
        have hnabs : (y1 - y0).natAbs = (x1 - x0).natAbs := by
          rcases hyx with h2 | h2 <;> omega
        have hdy := dir_facts y0 y1 (fun h => hy10 h.symm)
        have hdy2 := dir_facts y1 y0 hy10
        have hyrel := hdy.2
        rw [hnabs] at hyrel
        rw [hnn]
        have hrel2 := hd2.2
        rw [hnn] at hrel2
        rw [dMarch_mem_of (if x0 < x1 then (1 : ℤ) else -1) (if y0 < y1 then (1 : ℤ) else -1)
            x0 x1 y0 ((x1 - x0).natAbs) hd.1 hd.2 p,
          dMarch_mem_of (if x1 < x0 then (1 : ℤ) else -1) (if y1 < y0 then (1 : ℤ) else -1)
            x1 x0 y1 ((x1 - x0).natAbs) hd2.1 hrel2 p]
        rw [dir_flip x0 x1 hne01, dir_flip y0 y1 (fun h => hy10 h.symm)]
        have hmain := exists_flip_pair ((x1 - x0).natAbs) x0
          (if x0 < x1 then (1 : ℤ) else -1) y0 (if y0 < y1 then (1 : ℤ) else -1) p
        rw [← hd.2, ← hyrel] at hmain
        exact hmain
      · by_cases hmx : -1 < m ∧ m < 1
        · rw [if_neg hm0, if_neg hm0, if_neg hm1, if_neg hm1, if_pos hmx, if_pos hmx]
          have hanchor : m * ((x0 : ℚ) - (x1 : ℚ)) = (y0 : ℚ) - (y1 : ℚ) := by
            linear_combination -hmprod
          have hline1 : lineY m x1 y1 x0 = (y0 : ℚ) := by
            unfold lineY
            linear_combination hanchor
          have hline2 : lineY m x0 y0 x1 = (y1 : ℚ) := by
            unfold lineY
            linear_combination hmprod
          rw [hnn]
          have hrel2 := hd2.2
          rw [hnn] at hrel2
          rw [xMarch_mem_of m x1 y1 (if x0 < x1 then (1 : ℤ) else -1) x0 y0
              ((x1 - x0).natAbs) hd.1 hd.2 hline1 p,
            xMarch_mem_of m x0 y0 (if x1 < x0 then (1 : ℤ) else -1) x1 y1
              ((x1 - x0).natAbs) hd2.1 hrel2 hline2 p]
          have hstepeq : ∀ u : ℤ, xStep m x0 y0 u = xStep m x1 y1 u := fun u =>
            xStep_anchor m x0 y0 x1 y1 hanchor u
          simp only [hstepeq]
          rw [dir_flip x0 x1 hne01]
          exact exists_flip_lin ((x1 - x0).natAbs) x0 (if x0 < x1 then (1 : ℤ) else -1) x1
            hd.2 (fun v => p ∈ xStep m x1 y1 v)
        · rw [if_neg hm0, if_neg hm0, if_neg hm1, if_neg hm1, if_neg hmx, if_neg hmx]
          have hy10 : y1 ≠ y0 := by
            intro h
            apply hm0
            rw [hmdef, h]
            simp
          have hanchor : m * ((x0 : ℚ) - (x1 : ℚ)) = (y0 : ℚ) - (y1 : ℚ) := by
            linear_combination -hmprod
          have hyne : (y1 : ℚ) - (y0 : ℚ) ≠ 0 := by
            intro hc
            apply hy10
            have h1 : (y1 : ℚ) = (y0 : ℚ) := by linarith
            exact_mod_cast h1
          have hline1 : lineX m x1 y1 y0 = (x0 : ℚ) := by
            unfold lineX
            rw [hmdef]
            field_simp
            ring
          have hline2 : lineX m x0 y0 y1 = (x1 : ℚ) := by
            unfold lineX
            rw [hmdef]
            field_simp
          have hdy := dir_facts y0 y1 (fun h => hy10 h.symm)
          have hdy2 := dir_facts y1 y0 hy10
          have hnny : (y0 - y1).natAbs = (y1 - y0).natAbs := by omega
          rw [hnny]
          have hyrel2 := hdy2.2
          rw [hnny] at hyrel2
          rw [yMarch_mem_of m x1 y1 (if y0 < y1 then (1 : ℤ) else -1) y0 x0
              ((y1 - y0).natAbs) hdy.1 hdy.2 hline1 p,
            yMarch_mem_of m x0 y0 (if y1 < y0 then (1 : ℤ) else -1) y1 x1
              ((y1 - y0).natAbs) hdy2.1 hyrel2 hline2 p]
          have hstepeq : ∀ u : ℤ, yStep m x0 y0 u = yStep m x1 y1 u := fun u =>
            yStep_anchor m x0 y0 x1 y1 hm0 hanchor u
          simp only [hstepeq]
          rw [dir_flip y0 y1 (fun h => hy10 h.symm)]
          exact exists_flip_lin ((y1 - y0).natAbs) y0 (if y0 < y1 then (1 : ℤ) else -1) y1
            hdy.2 (fun v => p ∈ yStep m x1 y1 v)

/-- `scan_line` produces the same stencil for swapped endpoints: the dot
sets coincide and `render_dot` only ORs bits and writes the one shared
color. -/
theorem scan_line_symm (sb : Stencil) (x0 y0 x1 y1 : ℤ) (fgc : ℕ) :
    scan_line sb x0 y0 x1 y1 fgc = scan_line sb x1 y1 x0 y0 fgc := by
  unfold scan_line
  exact applyDots_congr fgc sb _ _ (fun p => scanLineDots_symm x0 y0 x1 y1 p)

theorem min_one_sub (a b : ℚ) : min (1 - a) (1 - b) = 1 - max a b := by
  rcases le_total a b with h | h
  · rw [max_eq_right h, min_eq_right (by linarith)]
  · rw [max_eq_left h, min_eq_left (by linarith)]

theorem max_one_sub (a b : ℚ) : max (1 - a) (1 - b) = 1 - min a b := by
  rcases le_total a b with h | h
  · rw [min_eq_left h, max_eq_left (by linarith)]
  · rw [min_eq_right h, max_eq_right (by linarith)]

/-- Liang-Barsky edge loop under endpoint swap: each edge's `(p, q)`
becomes `(-p, q - p)`, its parameter `q/p` becomes `1 - q/p` with the
entry/exit roles flipped, so the final window maps to
`(1 - texit, 1 - tentry)` and rejection is unchanged. -/
theorem clipLoop_symm :
    ∀ (l : List (ℤ × ℤ)) (te tx : ℚ),
      clipLoop (l.map (fun pq => (-pq.1, pq.2 - pq.1))) (1 - tx) (1 - te) =
        (clipLoop l te tx).map (fun ab => (1 - ab.2, 1 - ab.1)) := by
  intro l
  induction l with
  | nil =>
      intro te tx
      rfl
  | cons hd rest ih =>
      intro te tx
      obtain ⟨hp, hq⟩ := hd
      simp only [List.map_cons]
      by_cases h0 : hp = 0
      · subst h0
        simp only [clipLoop, neg_zero, sub_zero]
        by_cases hqn : hq < 0
        · rw [if_pos hqn, if_pos hqn]
          rfl
        · rw [if_neg hqn, if_neg hqn]
          exact ih te tx
      · have hn0 : ¬(-hp = 0) := by omega
        have hpq0 : ((hp : ℚ)) ≠ 0 := Int.cast_ne_zero.mpr h0
        have hqdiv : ((hq - hp : ℤ) : ℚ) / ((-hp : ℤ) : ℚ) = 1 - (hq : ℚ) / (hp : ℚ) := by
          push_cast
          rw [div_eq_iff (by simpa using hpq0 : -(hp : ℚ) ≠ 0)]
          field_simp
          ring
        rcases lt_trichotomy hp 0 with hneg | hzero | hpos
        · -- forward edge enters; reversed edge (-hp > 0) exits
          simp only [clipLoop, if_neg h0, if_neg hn0, if_pos hneg,
            if_neg (by omega : ¬(-hp < 0))]
          rw [hqdiv, min_one_sub]
          exact ih (max te ((hq : ℚ) / (hp : ℚ))) tx
        · exact absurd hzero h0
        · -- forward edge exits; reversed edge (-hp < 0) enters
          simp only [clipLoop, if_neg h0, if_neg hn0, if_neg (by omega : ¬(hp < 0)),
            if_pos (by omega : -hp < 0)]
          rw [hqdiv, max_one_sub]
          exact ih te (min tx ((hq : ℚ) / (hp : ℚ)))

theorem clipLoop_symm01 (l : List (ℤ × ℤ)) :
    clipLoop (l.map (fun pq => (-pq.1, pq.2 - pq.1))) 0 1 =
      (clipLoop l 0 1).map (fun ab => (1 - ab.2, 1 - ab.1)) := by
  have h := clipLoop_symm l 0 1
  norm_num at h
  exact h

theorem vtr_scan_linec_eq_of_none (vt : Canvas) (x0 y0 x1 y1 : ℤ) (fgc : ℕ)
    (h : clipLoop [(-(x1 - x0), x0 - 0), (x1 - x0, ((vt.xdots : ℤ) - 1) - x0),
        (-(y1 - y0), y0 - 0), (y1 - y0, ((vt.ydots : ℤ) - 1) - y0)] 0 1 = none) :
    vtr_scan_linec vt x0 y0 x1 y1 fgc = vt := by
  simp only [vtr_scan_linec]
  rw [h]

theorem vtr_scan_linec_eq_of_some (vt : Canvas) (x0 y0 x1 y1 : ℤ) (fgc : ℕ) (te tx : ℚ)
    (h : clipLoop [(-(x1 - x0), x0 - 0), (x1 - x0, ((vt.xdots : ℤ) - 1) - x0),
        (-(y1 - y0), y0 - 0), (y1 - y0, ((vt.ydots : ℤ) - 1) - y0)] 0 1 = some (te, tx)) :
    vtr_scan_linec vt x0 y0 x1 y1 fgc =
      (if te ≤ tx then
        updateCur vt (fun sb =>
          scan_line sb (roundf ((x0 : ℚ) + te * ((x1 - x0 : ℤ) : ℚ)))
            (roundf ((y0 : ℚ) + te * ((y1 - y0 : ℤ) : ℚ)))
            (roundf ((x0 : ℚ) + tx * ((x1 - x0 : ℤ) : ℚ)))
            (roundf ((y0 : ℚ) + tx * ((y1 - y0 : ℤ) : ℚ))) fgc)
      else vt) := by
  simp only [vtr_scan_linec]
  rw [h]

/-- `vtr_scan_linec` for swapped endpoints: clipping accepts/rejects the
same segments, the clipped endpoints swap exactly, and the scan plots the
same dot set. -/
theorem vtr_scan_linec_symm (vt : Canvas) (x0 y0 x1 y1 : ℤ) (fgc : ℕ) :
    vtr_scan_linec vt x0 y0 x1 y1 fgc = vtr_scan_linec vt x1 y1 x0 y0 fgc := by
  have hpq : [(-(x0 - x1), x1 - 0), (x0 - x1, ((vt.xdots : ℤ) - 1) - x1),
      (-(y0 - y1), y1 - 0), (y0 - y1, ((vt.ydots : ℤ) - 1) - y1)] =
      ([(-(x1 - x0), x0 - 0), (x1 - x0, ((vt.xdots : ℤ) - 1) - x0),
        (-(y1 - y0), y0 - 0), (y1 - y0, ((vt.ydots : ℤ) - 1) - y0)].map
          (fun pq => (-pq.1, pq.2 - pq.1))) := by
    simp only [List.map_cons, List.map_nil, List.cons.injEq, Prod.mk.injEq, and_true]
    refine ⟨⟨by ring, by ring⟩, ⟨by ring, by ring⟩, ⟨by ring, by ring⟩, by ring, by ring⟩
  cases hres : clipLoop [(-(x1 - x0), x0 - 0), (x1 - x0, ((vt.xdots : ℤ) - 1) - x0),
      (-(y1 - y0), y0 - 0), (y1 - y0, ((vt.ydots : ℤ) - 1) - y0)] 0 1 with
  | none =>
      have hrev : clipLoop [(-(x0 - x1), x1 - 0), (x0 - x1, ((vt.xdots : ℤ) - 1) - x1),
          (-(y0 - y1), y1 - 0), (y0 - y1, ((vt.ydots : ℤ) - 1) - y1)] 0 1 = none := by
        rw [hpq, clipLoop_symm01, hres]
        rfl
      rw [vtr_scan_linec_eq_of_none vt x0 y0 x1 y1 fgc hres,
        vtr_scan_linec_eq_of_none vt x1 y1 x0 y0 fgc hrev]
  | some ab =>
      obtain ⟨te, tx⟩ := ab
      have hrev : clipLoop [(-(x0 - x1), x1 - 0), (x0 - x1, ((vt.xdots : ℤ) - 1) - x1),
          (-(y0 - y1), y1 - 0), (y0 - y1, ((vt.ydots : ℤ) - 1) - y1)] 0 1 =
          some (1 - tx, 1 - te) := by
        rw [hpq, clipLoop_symm01, hres]
        rfl
      rw [vtr_scan_linec_eq_of_some vt x0 y0 x1 y1 fgc te tx hres,
        vtr_scan_linec_eq_of_some vt x1 y1 x0 y0 fgc (1 - tx) (1 - te) hrev]
      by_cases hacc : te ≤ tx
      · rw [if_pos hacc, if_pos (by linarith : (1 : ℚ) - tx ≤ 1 - te)]
        congr 1
        funext sb
        have e1 : (x1 : ℚ) + (1 - tx) * ((x0 - x1 : ℤ) : ℚ) =
            (x0 : ℚ) + tx * ((x1 - x0 : ℤ) : ℚ) := by push_cast; ring
        have e2 : (y1 : ℚ) + (1 - tx) * ((y0 - y1 : ℤ) : ℚ) =
            (y0 : ℚ) + tx * ((y1 - y0 : ℤ) : ℚ) := by push_cast; ring
        have e3 : (x1 : ℚ) + (1 - te) * ((x0 - x1 : ℤ) : ℚ) =
            (x0 : ℚ) + te * ((x1 - x0 : ℤ) : ℚ) := by push_cast; ring
        have e4 : (y1 : ℚ) + (1 - te) * ((y0 - y1 : ℤ) : ℚ) =
            (y0 : ℚ) + te * ((y1 - y0 : ℤ) : ℚ) := by push_cast; ring
        rw [e1, e2, e3, e4]
        exact scan_line_symm sb _ _ _ _ fgc
      · rw [if_neg hacc, if_neg (fun hc => hacc (by linarith))]

/-- Endpoint symmetry of the exact-arithmetic model: with the clip
quotients and clipped endpoints computed in exact rational arithmetic,
`vtr_scan_line(a, b)` and `vtr_scan_line(b, a)` produce identical
canvases - clipping, branch selection, the rounded minor coordinates and
the half-tie double dots are all invariant under swapping the endpoints,
and only the traversal order differs.  This is a fact about the model
only: the C program computes the clip in binary32, and for coordinates
of magnitude 2^24 and above the float conversions round, which breaks
the symmetry.  Concretely, for `a = (-16777217, 80)`, `b = (159, 80)` on
a 40x80-cell canvas, `(float)(-16777217) = -2^24` and
`tentry = 1 - 160 * 2^(-24)`, so the forward call clips to the exit
endpoint `roundf(-2^24 + 1.0f * 16777376.0f) = 160`, out of range
(failing `assert(x1 < sb->xdots)` in `scan_line`, or with NDEBUG
plotting a dot at buffer index 1680 = row 21, column 0), while the
reversed call clips to 159..0 and plots exactly the 160 in-range dots;
this model computes the exit endpoint 159 both ways. -/
theorem vtr_scan_line_endpoint_symm (vt : Canvas) (x0 y0 x1 y1 : ℤ) :
    vtr_scan_line vt x0 y0 x1 y1 = vtr_scan_line vt x1 y1 x0 y0 := by
  unfold vtr_scan_line
  exact vtr_scan_linec_symm vt x0 y0 x1 y1 VTR_COLOR_DEFAULT

/-! ### C5: clipping of the horizontal line (-50, 80) - (200, 80) -/
theorem c5_clip (q4 : ℤ) (h4 : ¬(q4 < 0)) :
    clipLoop [((-250 : ℤ), (-50 : ℤ)), (250, 209), (0, 80), (0, q4)] 0 1 =
      some (1 / 5, 209 / 250) := by
  simp only [clipLoop]
  norm_num
  intro hc
  exact absurd hc h4

theorem c5_dots (p : ℤ × ℤ) :
    p ∈ scanLineDots 0 80 159 80 ↔ ∃ k : ℕ, k ≤ 159 ∧ p = ((k : ℤ), 80) := by
  have hcs : calc_slope 0 80 159 80 = some 0 := by
    unfold calc_slope
    norm_num
  rw [scanLineDots_of_some 0 80 159 80 0 hcs, if_pos rfl]
  rw [show (if (0 : ℤ) < 159 then (1 : ℤ) else -1) = 1 from by norm_num]
  rw [show ((159 : ℤ) - 0).natAbs = 159 from by norm_num]
  rw [hMarch_mem_of 80 1 0 159 159 (Or.inl rfl) (by norm_num) p]
  exact exists_congr fun k => and_congr_right fun _ => by rw [zero_add, one_mul]

/-- C5: on a canvas with `xdots = 160` and `ydots > 80` (`R > 20` rows of
80 columns), `vtr_scan_line(-50, 80, 200, 80)` clips the endpoints to
`(0, 80)` and `(159, 80)` (`tentry = 1/5`, `texit = 209/250`, both exact
in binary32 as well) and the horizontal march sets exactly the dots
`(x, 80)` for `0 ≤ x ≤ 159` and no other dot of the canvas. -/
theorem vtr_scan_line_clip_exact (R : ℕ) (hR : 20 < R) (x y : ℕ)
    (hx : x < 160) (hy : y < 4 * R) :
    (dotTest (curSb (vtr_scan_line (vtr_canvas_create R 80) (-50) 80 200 80)) x y = true) ↔
      y = 80 := by
  have hxd : (vtr_canvas_create R 80).xdots = 160 := rfl
  have hyd : (vtr_canvas_create R 80).ydots = R * 4 := rfl
  have hclip : clipLoop [(-(200 - (-50 : ℤ)), (-50 : ℤ) - 0),
      (200 - (-50 : ℤ), (((vtr_canvas_create R 80).xdots : ℤ) - 1) - (-50)),
      (-((80 : ℤ) - 80), (80 : ℤ) - 0),
      ((80 : ℤ) - 80, (((vtr_canvas_create R 80).ydots : ℤ) - 1) - 80)] 0 1 =
      some (1 / 5, 209 / 250) := by
    have hl : [(-(200 - (-50 : ℤ)), (-50 : ℤ) - 0),
        (200 - (-50 : ℤ), (((vtr_canvas_create R 80).xdots : ℤ) - 1) - (-50)),
        (-((80 : ℤ) - 80), (80 : ℤ) - 0),
        ((80 : ℤ) - 80, (((vtr_canvas_create R 80).ydots : ℤ) - 1) - 80)] =
        [((-250 : ℤ), (-50 : ℤ)), (250, 209), (0, 80), (0, ((R * 4 : ℕ) : ℤ) - 1 - 80)] := by
      rw [hxd, hyd]
      norm_num
    rw [hl]
    exact c5_clip (((R * 4 : ℕ) : ℤ) - 1 - 80) (by push_cast; omega)
  have hmain : vtr_scan_line (vtr_canvas_create R 80) (-50) 80 200 80 =
      updateCur (vtr_canvas_create R 80) (fun sb => scan_line sb 0 80 159 80 0) := by
    unfold vtr_scan_line
    rw [vtr_scan_linec_eq_of_some (vtr_canvas_create R 80) (-50) 80 200 80
      VTR_COLOR_DEFAULT (1 / 5) (209 / 250) hclip]
    rw [if_pos (by norm_num : (1 / 5 : ℚ) ≤ 209 / 250)]
    have ha1 : roundf (((-50 : ℤ) : ℚ) + 1 / 5 * ((200 - (-50 : ℤ) : ℤ) : ℚ)) = 0 := by
      rw [show (((-50 : ℤ) : ℚ) + 1 / 5 * ((200 - (-50 : ℤ) : ℤ) : ℚ)) = ((0 : ℤ) : ℚ) from by
        push_cast; norm_num]
      exact roundf_intCast 0
    have ha2 : roundf (((80 : ℤ) : ℚ) + 1 / 5 * ((80 - (80 : ℤ) : ℤ) : ℚ)) = 80 := by
      rw [show (((80 : ℤ) : ℚ) + 1 / 5 * ((80 - (80 : ℤ) : ℤ) : ℚ)) = ((80 : ℤ) : ℚ) from by
        push_cast; norm_num]
      exact roundf_intCast 80
    have ha3 : roundf (((-50 : ℤ) : ℚ) + 209 / 250 * ((200 - (-50 : ℤ) : ℤ) : ℚ)) = 159 := by
      rw [show (((-50 : ℤ) : ℚ) + 209 / 250 * ((200 - (-50 : ℤ) : ℤ) : ℚ)) = ((159 : ℤ) : ℚ)
        from by push_cast; norm_num]
      exact roundf_intCast 159
    have ha4 : roundf (((80 : ℤ) : ℚ) + 209 / 250 * ((80 - (80 : ℤ) : ℤ) : ℚ)) = 80 := by
      rw [show (((80 : ℤ) : ℚ) + 209 / 250 * ((80 - (80 : ℤ) : ℤ) : ℚ)) = ((80 : ℤ) : ℚ) from by
        push_cast; norm_num]
      exact roundf_intCast 80
    simp only [ha1, ha2, ha3, ha4, VTR_COLOR_DEFAULT]
  rw [hmain]
  rw [show curSb (updateCur (vtr_canvas_create R 80) (fun sb => scan_line sb 0 80 159 80 0)) =
    scan_line (curSb (vtr_canvas_create R 80)) 0 80 159 80 0 from
    curSb_updateCur (vtr_canvas_create R 80) (fun sb => scan_line sb 0 80 159 80 0)]
  have hcur : curSb (vtr_canvas_create R 80) = create_stencil_buf R 80 := rfl
  rw [hcur]
  unfold scan_line dotTest
  rw [applyDots_xdots]
  have hsx : (create_stencil_buf R 80).xdots / VT_CELL_XDOTS = 80 := by
    simp [create_stencil_buf, VT_CELL_XDOTS]
  rw [hsx]
  rw [applyDots_buffer]
  have hzero : ((create_stencil_buf R 80).buffer
      (cellOf 80 x y)).testBit (bitOf x y) = false := by
    exact Nat.zero_testBit _
  rw [hsx, hzero, Bool.false_or, List.any_eq_true]
  constructor
  · rintro ⟨p, hp, hcond⟩
    rw [c5_dots p] at hp
    obtain ⟨k, hk, rfl⟩ := hp
    simp only [Bool.and_eq_true, decide_eq_true_eq] at hcond
    obtain ⟨hcell, hbit⟩ := hcond
    have hkx : ((k : ℤ)).toNat = k := Int.toNat_natCast k
    have hky : ((80 : ℤ)).toNat = 80 := rfl
    rw [hkx, hky] at hcell hbit
    have hklt : k < 80 * VT_CELL_XDOTS := by
      unfold VT_CELL_XDOTS
      omega
    have hxlt : x < 80 * VT_CELL_XDOTS := by
      unfold VT_CELL_XDOTS
      omega
    have := cellOf_bitOf_inj hklt hxlt hcell.symm hbit.symm
    omega
  · rintro rfl
    refine ⟨((x : ℤ), 80), ?_, ?_⟩
    · rw [c5_dots]
      exact ⟨x, by omega, rfl⟩
    · simp only [Bool.and_eq_true, decide_eq_true_eq]
      constructor
      · rw [Int.toNat_natCast]
        rfl
      · rw [Int.toNat_natCast]
        rfl

/-- Witness for `vtr_scan_line_clip_exact` at `R = 40`, `(x, y) = (5, 80)`. -/
theorem vtr_scan_line_clip_exact_witness :
    (dotTest (curSb (vtr_scan_line (vtr_canvas_create 40 80) (-50) 80 200 80)) 5 80 = true) ↔
      (80 : ℕ) = 80 :=
  vtr_scan_line_clip_exact 40 (by norm_num) 5 80 (by norm_num) (by norm_num)

theorem swap_emitted (vt : Canvas) (aOk wOk : Bool) (st : DiffSt)
    (h : diffWalk vt aOk = some st) :
    (vtr_swap_buffers vt aOk wOk).2.2 = st.seq := by
  unfold vtr_swap_buffers
  rw [h]

theorem swap_post (vt : Canvas) (aOk wOk : Bool) (st : DiffSt)
    (h : diffWalk vt aOk = some st) :
    curSb (vtr_swap_buffers vt aOk wOk).2.1 = zeroSb (vt.nrows * vt.ncols) (prevSb vt) ∧
    prevSb (vtr_swap_buffers vt aOk wOk).2.1 = curSb vt ∧
    (vtr_swap_buffers vt aOk wOk).2.1.nrows = vt.nrows ∧
    (vtr_swap_buffers vt aOk wOk).2.1.ncols = vt.ncols ∧
    (vtr_swap_buffers vt aOk wOk).2.1.cur = !vt.cur := by
  unfold vtr_swap_buffers
  rw [h]
  cases hc : vt.cur <;> simp [curSb, prevSb, hc]

theorem diffStep_isSome (vt : Canvas) (st : DiffSt) (rc : ℕ × ℕ) :
    (diffStep vt true st rc).isSome := by
  unfold diffStep
  dsimp only
  split
  · rfl
  · rw [if_neg (by simp)]
    split
    · rfl
    · split
      · rfl
      · rfl

theorem diffWalk_isSome (vt : Canvas) : (diffWalk vt true).isSome := by
  unfold diffWalk
  have hgen : ∀ (l : List (ℕ × ℕ)) (st : DiffSt),
      (l.foldl (fun acc rc => acc.bind (fun st => diffStep vt true st rc)) (some st)).isSome := by
    intro l
    induction l with
    | nil => intro st; rfl
    | cons rc rest ih =>
        intro st
        rw [List.foldl_cons]
        have hsome := diffStep_isSome vt st rc
        obtain ⟨st2, hst2⟩ := Option.isSome_iff_exists.mp hsome
        rw [Option.some_bind, hst2]
        exact ih st2
  exact hgen (cells vt) _

theorem cells_index_lt (vt : Canvas) (rc : ℕ × ℕ) (h : rc ∈ cells vt) :
    rc.1 * vt.ncols + rc.2 < vt.nrows * vt.ncols := by
  unfold cells at h
  rw [List.mem_flatMap] at h
  obtain ⟨r, hr, hmem⟩ := h
  rw [List.mem_map] at hmem
  obtain ⟨c, hc, rfl⟩ := hmem
  rw [List.mem_range] at hr hc
  calc r * vt.ncols + c < r * vt.ncols + vt.ncols := by omega
    _ = (r + 1) * vt.ncols := by ring
    _ ≤ vt.nrows * vt.ncols := Nat.mul_le_mul_right _ (by omega)

/-- A differ walk over two stencils that agree on every in-bounds cell
skips every cell and emits only the SGR-reset prefix. -/
theorem diffWalk_all_equal (vt : Canvas) (aOk : Bool)
    (heq : ∀ i, i < vt.nrows * vt.ncols →
      (curSb vt).buffer i = (prevSb vt).buffer i ∧
      (curSb vt).fgcolors i = (prevSb vt).fgcolors i ∧
      (curSb vt).textoverlay i = (prevSb vt).textoverlay i) :
    diffWalk vt aOk = some (initDiffSt vt) := by
  unfold diffWalk
  have hstep : ∀ rc ∈ cells vt,
      diffStep vt aOk (initDiffSt vt) rc = some (initDiffSt vt) := by
    intro rc hrc
    have hi := cells_index_lt vt rc hrc
    obtain ⟨hb, hf, ht⟩ := heq (rc.1 * vt.ncols + rc.2) hi
    unfold diffStep
    rw [if_pos]
    · rfl
    · constructor
      · intro hcon
        exact hcon ht
      · right
        intro hcon
        rcases hcon with hcon | hcon
        · exact hcon hb
        · exact hcon hf
  have hgen : ∀ (l : List (ℕ × ℕ)),
      (∀ rc ∈ l, diffStep vt aOk (initDiffSt vt) rc = some (initDiffSt vt)) →
      l.foldl (fun acc rc => acc.bind (fun st => diffStep vt aOk st rc))
        (some (initDiffSt vt)) = some (initDiffSt vt) := by
    intro l
    induction l with
    | nil =>
        intro _
        rfl
    | cons rc rest ih =>
        intro hall
        rw [List.foldl_cons, Option.some_bind, hall rc (List.mem_cons_self rc rest)]
        exact ih (fun rc2 h2 => hall rc2 (List.mem_cons_of_mem rc h2))
  exact hgen (cells vt) hstep

/-- C10: when growing the sequence buffer fails and `vtr_swap_buffers`
returns OUT_OF_MEMORY, the canvas is exactly as before the call: no
stencil content is zeroed, the current-buffer designation is unchanged,
and `seqcap` keeps its previous value (the C halves the doubled capacity
back before the early return; no state was modified up to that point). -/
theorem vtr_swap_buffers_oom_state (vt : Canvas) (aOk wOk : Bool)
    (h : (vtr_swap_buffers vt aOk wOk).1 = .enomem) :
    (vtr_swap_buffers vt aOk wOk).2.1 = vt := by
  cases hw : diffWalk vt aOk with
  | none =>
      unfold vtr_swap_buffers
      rw [hw]
  | some st =>
      unfold vtr_swap_buffers at h
      rw [hw] at h
      cases wOk <;> simp at h

/-- Witness for `vtr_swap_buffers_oom_state`: one dirty cell on a 1x1
canvas whose 64-byte seqlist triggers a growth attempt; with the
allocation failing the call reports OUT_OF_MEMORY and the canvas is
untouched. -/
theorem vtr_swap_buffers_oom_state_witness :
    (vtr_swap_buffers (vtr_render_dotc (vtr_canvas_create 1 1) 0 0 0) false true).1 =
      .enomem ∧
    (vtr_swap_buffers (vtr_render_dotc (vtr_canvas_create 1 1) 0 0 0) false true).2.1 =
      vtr_render_dotc (vtr_canvas_create 1 1) 0 0 0 :=
  ⟨by decide, vtr_swap_buffers_oom_state _ false true (by decide)⟩

/-- C1 (amended): a failed terminal write does not preserve the previous
frame for a retry.  The swap of the stencil designation and the zeroing of
the previously-presented stencil happen before `sendseq`, so the post-call
state after a failed write is identical to the state after a successful
one; the failure only changes the return code from 0 to IO_ERROR. -/
theorem vtr_swap_buffers_write_failure (vt : Canvas) (aOk : Bool) :
    (vtr_swap_buffers vt aOk false).2.1 = (vtr_swap_buffers vt aOk true).2.1 ∧
    (vtr_swap_buffers vt aOk false).2.2 = (vtr_swap_buffers vt aOk true).2.2 ∧
    (vtr_swap_buffers vt aOk false).1 =
      (if (vtr_swap_buffers vt aOk true).1 = .ok then .eio
        else (vtr_swap_buffers vt aOk true).1) := by
  unfold vtr_swap_buffers
  cases diffWalk vt aOk with
  | none => exact ⟨rfl, rfl, by simp⟩
  | some st => exact ⟨rfl, rfl, by simp⟩

/-- C1 (counterexample): present one dot on a 1x1 canvas, then call
`vtr_swap_buffers` with the write failing.  Before the failing call the
front stencil `sb0` holds the presented dot (`cur = true`); the call
returns IO_ERROR yet the designation is swapped back to `sb0` and the
previously-presented contents are zeroed - the delta is lost, not
retried. -/
theorem vtr_swap_buffers_write_failure_cex :
    (vtr_swap_buffers (vtr_render_dotc (vtr_canvas_create 1 1) 0 0 0) true true).2.1.cur =
      true ∧
    (vtr_swap_buffers (vtr_render_dotc (vtr_canvas_create 1 1) 0 0 0)
      true true).2.1.sb0.buffer 0 = 1 ∧
    (vtr_swap_buffers (vtr_swap_buffers (vtr_render_dotc (vtr_canvas_create 1 1) 0 0 0)
      true true).2.1 true false).1 = VtrResult.eio ∧
    (vtr_swap_buffers (vtr_swap_buffers (vtr_render_dotc (vtr_canvas_create 1 1) 0 0 0)
      true true).2.1 true false).2.1.cur = false ∧
    (vtr_swap_buffers (vtr_swap_buffers (vtr_render_dotc (vtr_canvas_create 1 1) 0 0 0)
      true true).2.1 true false).2.1.sb0.buffer 0 = 0 := by
  decide

/-- C4 (amended): after a frame is presented, the next `vtr_swap_buffers`
with no intervening rasterization still emits erasing cell updates (the
freshly-zeroed back buffer differs from the presented front buffer); it is
the third consecutive call whose stream is exactly the SGR-reset prefix,
both stencils being zero from then on. -/
theorem vtr_swap_buffers_third_call_quiescent (vt : Canvas) :
    (vtr_swap_buffers (vtr_swap_buffers (vtr_swap_buffers vt true true).2.1 true true).2.1
      true true).2.2 = set_foreground_color_s VTR_COLOR_DEFAULT := by
  obtain ⟨st1, h1⟩ := Option.isSome_iff_exists.mp (diffWalk_isSome vt)
  have hpost1 := swap_post vt true true st1 h1
  obtain ⟨st2, h2⟩ :=
    Option.isSome_iff_exists.mp (diffWalk_isSome (vtr_swap_buffers vt true true).2.1)
  have hpost2 := swap_post (vtr_swap_buffers vt true true).2.1 true true st2 h2
  have hn1 := hpost1.2.2.1
  have hn2 := hpost1.2.2.2.1
  have hm1 := hpost2.2.2.1
  have hm2 := hpost2.2.2.2.1
  have heq : ∀ i, i < (vtr_swap_buffers (vtr_swap_buffers vt true true).2.1
        true true).2.1.nrows *
      (vtr_swap_buffers (vtr_swap_buffers vt true true).2.1 true true).2.1.ncols →
      (curSb (vtr_swap_buffers (vtr_swap_buffers vt true true).2.1 true true).2.1).buffer i =
        (prevSb (vtr_swap_buffers (vtr_swap_buffers vt true true).2.1 true true).2.1).buffer
          i ∧
      (curSb (vtr_swap_buffers (vtr_swap_buffers vt true true).2.1 true true).2.1).fgcolors
          i =
        (prevSb (vtr_swap_buffers
          (vtr_swap_buffers vt true true).2.1 true true).2.1).fgcolors i ∧
      (curSb (vtr_swap_buffers
          (vtr_swap_buffers vt true true).2.1 true true).2.1).textoverlay i =
        (prevSb (vtr_swap_buffers
          (vtr_swap_buffers vt true true).2.1 true true).2.1).textoverlay i := by
    intro i hi
    rw [hm1, hm2] at hi
    have hi0 : i < vt.nrows * vt.ncols := by
      rw [hn1, hn2] at hi
      exact hi
    rw [hpost2.1, hpost2.2.1, hpost1.1]
    refine ⟨?_, ?_, ?_⟩ <;> simp [zeroSb, hi, hi0]
  have hw3 := diffWalk_all_equal (vtr_swap_buffers (vtr_swap_buffers vt true true).2.1
    true true).2.1 true heq
  rw [swap_emitted _ true true _ hw3]
  rfl

/-- C4 (counterexample): on a 1x1 canvas with one dot presented, the
second `vtr_swap_buffers` (no rasterization in between) does not emit only
the SGR-reset prefix: it must also move the cursor and draw the now-empty
Braille cell to erase the presented dot. -/
theorem vtr_swap_buffers_second_call_not_quiescent :
    (vtr_swap_buffers (vtr_swap_buffers (vtr_render_dotc (vtr_canvas_create 1 1) 0 0 0)
      true true).2.1 true true).2.2 ≠ set_foreground_color_s VTR_COLOR_DEFAULT := by
  decide

theorem trunc_intCast (n : ℤ) : trunc ((n : ℤ) : ℚ) = n := by
  simp [trunc]

theorem polyScanAux_none_of_neg_mem (l : List ℤ) :
    ∀ cross : ℤ, 0 < cross → (∃ c ∈ l, c < 0) → polyScanAux l cross = none := by
  induction l with
  | nil => rintro cross _ ⟨c, hc, _⟩; exact absurd hc (List.not_mem_nil c)
  | cons c2 rest ih =>
      rintro cross hpos ⟨c, hc, hcneg⟩
      rcases List.mem_cons.mp hc with rfl | hmem
      · rw [polyScanAux, if_neg (by omega), if_pos (Or.inl ⟨hpos, hcneg⟩)]
      · by_cases h0 : c2 = 0
        · rw [polyScanAux, if_pos h0]
          exact ih cross hpos ⟨c, hmem, hcneg⟩
        · rcases lt_or_gt_of_ne h0 with hlt | hgt
          · rw [polyScanAux, if_neg h0, if_pos (Or.inl ⟨hpos, hlt⟩)]
          · rw [polyScanAux, if_neg h0, if_neg (by omega)]
            exact ih c2 hgt ⟨c, hmem, hcneg⟩

theorem polyScanAux_none_of_pos_mem (l : List ℤ) :
    ∀ cross : ℤ, cross < 0 → (∃ c ∈ l, 0 < c) → polyScanAux l cross = none := by
  induction l with
  | nil => rintro cross _ ⟨c, hc, _⟩; exact absurd hc (List.not_mem_nil c)
  | cons c2 rest ih =>
      rintro cross hneg ⟨c, hc, hcpos⟩
      rcases List.mem_cons.mp hc with rfl | hmem
      · rw [polyScanAux, if_neg (by omega), if_pos (Or.inr ⟨hneg, hcpos⟩)]
      · by_cases h0 : c2 = 0
        · rw [polyScanAux, if_pos h0]
          exact ih cross hneg ⟨c, hmem, hcpos⟩
        · rcases lt_or_gt_of_ne h0 with hlt | hgt
          · rw [polyScanAux, if_neg h0, if_neg (by omega)]
            exact ih c2 hlt ⟨c, hmem, hcpos⟩
          · rw [polyScanAux, if_neg h0, if_pos (Or.inr ⟨hneg, hgt⟩)]

theorem polyScanAux_none_of_mixed (l : List ℤ)
    (hpos : ∃ c ∈ l, 0 < c) (hneg : ∃ c ∈ l, c < 0) :
    polyScanAux l 0 = none := by
  induction l with
  | nil => obtain ⟨c, hc, _⟩ := hpos; exact absurd hc (List.not_mem_nil c)
  | cons c2 rest ih =>
      by_cases h0 : c2 = 0
      · rw [polyScanAux, if_pos h0]
        obtain ⟨cp, hcp, hcpp⟩ := hpos
        obtain ⟨cn, hcn, hcnn⟩ := hneg
        rcases List.mem_cons.mp hcp with rfl | hcp2
        · omega
        rcases List.mem_cons.mp hcn with rfl | hcn2
        · omega
        exact ih ⟨cp, hcp2, hcpp⟩ ⟨cn, hcn2, hcnn⟩
      · rcases lt_or_gt_of_ne h0 with hlt | hgt
        · rw [polyScanAux, if_neg h0, if_neg (by omega)]
          obtain ⟨cp, hcp, hcpp⟩ := hpos
          rcases List.mem_cons.mp hcp with rfl | hcp2
          · omega
          exact polyScanAux_none_of_pos_mem rest c2 hlt ⟨cp, hcp2, hcpp⟩
        · rw [polyScanAux, if_neg h0, if_neg (by omega)]
          obtain ⟨cn, hcn, hcnn⟩ := hneg
          rcases List.mem_cons.mp hcn with rfl | hcn2
          · omega
          exact polyScanAux_none_of_neg_mem rest c2 hgt ⟨cn, hcn2, hcnn⟩

/-- C7: a vertex list (n >= 3) whose consecutive-triple cross products
contain both a strictly positive and a strictly negative value makes
`vtr_trace_poly` return INVALID_ARGUMENT with the canvas - in particular
the back stencil buffer - completely unchanged: the validation loop has
no side effects before the early return. -/
theorem vtr_trace_poly_einval (vt : Canvas) (vlist : List (ℤ × ℤ))
    (hlen : 3 ≤ vlist.length)
    (hpos : ∃ c ∈ crossList vlist, 0 < c)
    (hneg : ∃ c ∈ crossList vlist, c < 0) :
    vtr_trace_poly vt vlist = (.einval, vt) := by
  match vlist, hlen with
  | a :: b :: c :: rest, _ =>
      rw [vtr_trace_poly, vtr_trace_polyc,
        polyScanAux_none_of_mixed (crossList (a :: b :: c :: rest)) hpos hneg]

/-- Witness for `vtr_trace_poly_einval`: the quadrilateral
`[(0,0),(10,0),(5,10),(5,5)]` has cross products `[100, 25, -25, 50]`
(mixed signs) and is rejected without touching a 40x80-cell canvas. -/
theorem vtr_trace_poly_einval_witness :
    3 ≤ ([(0, 0), (10, 0), (5, 10), (5, 5)] : List (ℤ × ℤ)).length ∧
    (∃ c ∈ crossList [(0, 0), (10, 0), (5, 10), (5, 5)], 0 < c) ∧
    (∃ c ∈ crossList [(0, 0), (10, 0), (5, 10), (5, 5)], c < 0) ∧
    vtr_trace_poly (vtr_canvas_create 40 80) [(0, 0), (10, 0), (5, 10), (5, 5)] =
      (.einval, vtr_canvas_create 40 80) :=
  ⟨by decide, by decide, by decide,
    vtr_trace_poly_einval (vtr_canvas_create 40 80) _ (by decide) (by decide)
      (by decide)⟩

/-- C2 is false of the code: `starPoly` passes the cross-product
validation (all five cross products are 240 or 256, so `polyScanAux`
succeeds), its bounding rows are 0..16, yet at scan row y = 10 the
intercept collection gathers FOUR intercepts (17, 8, 16, 7 - each exact
in binary32).  The third append already violates the C
`assert(ncepts < 2)`; with NDEBUG the stores `xcepts[2]`, `xcepts[3]`
write past the two-element array. -/
theorem trace_poly_star_overflows_xcepts :
    (polyScanAux (crossList starPoly) 0).isSome = true ∧
    polyYmin starPoly = 0 ∧ polyYmax starPoly = 16 ∧
    (polyRow starPoly 0 0 16 (vtr_canvas_create 40 80) 10).2 = [17, 8, 16, 7] := by
  refine ⟨by decide, by decide, by decide, ?_⟩
  have e0 : trunc (xceptQ (12, 0) (20, 16) 10) = 17 := by
    have h : xceptQ (12, 0) (20, 16) 10 = ((17 : ℤ) : ℚ) := by norm_num [xceptQ]
    rw [h, trunc_intCast]
  have e1 : trunc (xceptQ (20, 16) (0, 6) 10) = 8 := by
    have h : xceptQ (20, 16) (0, 6) 10 = ((8 : ℤ) : ℚ) := by norm_num [xceptQ]
    rw [h, trunc_intCast]
  have e3 : trunc (xceptQ (24, 6) (4, 16) 10) = 16 := by
    have h : xceptQ (24, 6) (4, 16) 10 = ((16 : ℤ) : ℚ) := by norm_num [xceptQ]
    rw [h, trunc_intCast]
  have e4 : trunc (xceptQ (4, 16) (12, 0) 10) = 7 := by
    have h : xceptQ (4, 16) (12, 0) 10 = ((7 : ℤ) : ℚ) := by norm_num [xceptQ]
    rw [h, trunc_intCast]
  have hedges : polyEdges starPoly =
      [((12, 0), (20, 16)), ((20, 16), (0, 6)), ((0, 6), (24, 6)),
        ((24, 6), (4, 16)), ((4, 16), (12, 0))] := by decide
  rw [polyRow, hedges]
  simp only [List.foldl_cons, List.foldl_nil, polyRowStep]
  norm_num [e0, e1, e3, e4]

end Vtr
